import Mathlib

/-!
Shallow embedding of `src/budomari-kun.py` (guillotine cutting-plan tool):
demand bundling and expansion, the horizontal-shelf packer `pack_horizontal`,
the vertical-column packer `pack_vertical`, the shelf-height candidate
generator `candidate_heights`, and the dual-objective explorer
`explore_and_choose`.  Python floats are modelled as rationals; Python lists
as `List`; the in-place mutation of the board/shelf dictionaries as explicit
state passing.  Theorems about the spec's claims follow the definitions.
-/

namespace Budomari

open List

/-- A demand row `{w, h, n}` of the piece list (`st.session_state.rows`). -/
structure Row where
  w : ℚ
  h : ℚ
  n : ℕ
deriving DecidableEq, Repr

/-- An expanded piece unit `(ww, hh, rot, idx)` as built in the packers. -/
structure HPiece where
  w : ℚ
  h : ℚ
  rot : Bool
  pid : ℕ
deriving DecidableEq, Repr

/-- A cut line `(x1, y1, x2, y2, kind)`; `vertical = false` means horizontal. -/
structure Cut where
  x1 : ℚ
  y1 : ℚ
  x2 : ℚ
  y2 : ℚ
  vertical : Bool
deriving DecidableEq, Repr

/-- A drawn piece `(x, y, w, h, rot)` as stored in `pieces_draw`. -/
structure Rect where
  x : ℚ
  y : ℚ
  w : ℚ
  h : ℚ
  rot : Bool
deriving DecidableEq, Repr

/-- `normalize_dim(w, h, rotate_ok)`. -/
def normalize_dim (w h : ℚ) (rotate_ok : Bool) : ℚ × ℚ :=
  if rotate_ok then (min w h, max w h) else (w, h)

/-- One `bundle[key] += n` update of the insertion-ordered dict in
`demand_bundled`. -/
def bundleAdd : List ((ℚ × ℚ) × ℕ) → (ℚ × ℚ) → ℕ → List ((ℚ × ℚ) × ℕ)
  | [], key, n => [(key, n)]
  | (k, c) :: rest, key, n =>
    if k = key then (k, c + n) :: rest else (k, c) :: bundleAdd rest key n

/-- `demand_bundled(rows, rotate_ok)`: normalize each row's dimensions when
rotation is allowed and sum the quantities of rows with an equal key, keeping
first-occurrence order of keys (Python dict insertion order). -/
def demand_bundled (rows : List Row) (rotate_ok : Bool) : List (ℚ × ℚ × ℕ) :=
  (rows.foldl (fun acc r => bundleAdd acc (normalize_dim r.w r.h rotate_ok) r.n) []).map
    (fun kc => (kc.1.1, kc.1.2, kc.2))

/-- Orientation choice in the packers' expansion loops: if rotation is allowed
and `min(w,h) <= fixed < max(w,h)` use `(min, max)` with `rot = (w > h)`,
else keep `(w, h)` unrotated.  `fixed` is `shelf_h` (horizontal) or `col_w`
(vertical). -/
def orientFor (rotate_ok : Bool) (fixed w h : ℚ) : ℚ × ℚ × Bool :=
  if rotate_ok = true ∧ min w h ≤ fixed ∧ fixed < max w h then
    (min w h, max w h, decide (h < w))
  else (w, h, false)

/-- The nested expansion loop of the packers: one `HPiece` per demanded unit,
ids increasing from `idx`. -/
def expandGo (rotate_ok : Bool) (fixed : ℚ) : List (ℚ × ℚ × ℕ) → ℕ → List HPiece
  | [], _ => []
  | (w, h, n) :: rest, idx =>
    ((List.range n).map (fun j =>
      HPiece.mk (orientFor rotate_ok fixed w h).1 (orientFor rotate_ok fixed w h).2.1
        (orientFor rotate_ok fixed w h).2.2 (idx + j)))
      ++ expandGo rotate_ok fixed rest (idx + n)

/-- The packers' `expanded` list before sorting: `demand_bundled` then one
piece per unit with `idx_counter` starting at 0. -/
def expandedFor (rows : List Row) (rotate_ok : Bool) (fixed : ℚ) : List HPiece :=
  expandGo rotate_ok fixed (demand_bundled rows rotate_ok) 0

/-- Insert for a stable descending sort by `key` (Python's
`list.sort(key=..., reverse=True)`). -/
def insertByDesc {α : Type} (key : α → ℚ) (x : α) : List α → List α
  | [] => [x]
  | y :: ys => if key x ≤ key y then y :: insertByDesc key x ys else x :: y :: ys

/-- Stable descending sort by `key`. -/
def sortByDesc {α : Type} (key : α → ℚ) (l : List α) : List α :=
  l.foldl (fun acc x => insertByDesc key x acc) []

/-- A shelf dict of `pack_horizontal`. -/
structure Shelf where
  x : ℚ
  y : ℚ
  h : ℚ
  cursor_x : ℚ
  placed : ℕ
  pieces : List HPiece
deriving DecidableEq, Repr

/-- A board dict of `pack_horizontal`. -/
structure HBoard where
  shelves : List Shelf
  used_h : ℚ
  cuts : List Cut
deriving DecidableEq, Repr

/-- `open_new_shelf()`: append a fresh shelf and record its rip line. -/
def openNewShelfH (unit eff_w shelf_h edge_trim : ℚ) (b : HBoard) : HBoard :=
  let y := b.used_h + (if b.shelves.isEmpty then 0 else unit)
  let sh : Shelf := ⟨0, y, shelf_h, 0, 0, []⟩
  let shelves2 := b.shelves ++ [sh]
  let yline := if shelves2.length = 1 then edge_trim else y + edge_trim - unit
  ⟨shelves2, y + shelf_h, b.cuts ++ [⟨edge_trim, yline, eff_w + edge_trim, yline, false⟩]⟩

/-- The `for sh in cur["shelves"]` placement attempt with `break`: place the
piece on the first shelf that admits it, returning the updated shelf list. -/
def tryPlaceShelfH (unit eff_w : ℚ) (p : HPiece) : List Shelf → Option (List Shelf)
  | [] => none
  | sh :: rest =>
    if sh.h < p.h then
      Option.map (fun r => sh :: r) (tryPlaceShelfH unit eff_w p rest)
    else
      let need_w := p.w + (if 0 < sh.placed then unit else 0)
      let remain := eff_w - sh.cursor_x
      if need_w ≤ remain then
        some ({ sh with
                pieces := sh.pieces ++ [p]
                placed := sh.placed + 1
                cursor_x := sh.cursor_x + (if 1 < sh.placed + 1 then need_w else p.w) } :: rest)
      else
        Option.map (fun r => sh :: r) (tryPlaceShelfH unit eff_w p rest)

/-- Forced placement into the just-opened last shelf (`cur["shelves"][-1]`). -/
def placeLastShelfH (p : HPiece) : List Shelf → List Shelf
  | [] => []
  | [sh] => [{ sh with
               pieces := sh.pieces ++ [p]
               placed := sh.placed + 1
               cursor_x := sh.cursor_x + p.w }]
  | sh :: rest => sh :: placeLastShelfH p rest

/-- The packer's mutable state: closed boards, the current board `cur`, and
the `used_area` accumulator. -/
structure HState where
  closed : List HBoard
  cur : HBoard
  used : ℚ
deriving DecidableEq, Repr

/-- One iteration of `pack_horizontal`'s main placement loop. -/
def stepH (unit eff_w eff_h shelf_h edge_trim : ℚ) (s : HState) (p : HPiece) : HState :=
  match tryPlaceShelfH unit eff_w p s.cur.shelves with
  | some shelves2 => ⟨s.closed, { s.cur with shelves := shelves2 }, s.used + p.w * p.h⟩
  | none =>
    let need_h := (if s.cur.shelves.isEmpty then 0 else unit) + shelf_h
    if eff_h < s.cur.used_h + need_h then
      let nb := openNewShelfH unit eff_w shelf_h edge_trim ⟨[], 0, []⟩
      ⟨s.closed ++ [s.cur], { nb with shelves := placeLastShelfH p nb.shelves },
        s.used + p.w * p.h⟩
    else
      let b2 := openNewShelfH unit eff_w shelf_h edge_trim s.cur
      ⟨s.closed, { b2 with shelves := placeLastShelfH p b2.shelves }, s.used + p.w * p.h⟩

/-- Distinct keys of a piece list in first-occurrence order (the keys of the
`defaultdict(list)` buckets). -/
def dedupKeys (key : HPiece → ℚ) (l : List HPiece) : List ℚ :=
  l.foldl (fun acc p => if key p ∈ acc then acc else acc ++ [key p]) []

/-- `same_width_pack_order` generalized over the bucket key: group pieces by
`key` (original order inside a bucket) and emit buckets by key descending. -/
def bucketOrder (key : HPiece → ℚ) (l : List HPiece) : List HPiece :=
  (sortByDesc id (dedupKeys key l)).flatMap (fun k => l.filter (fun p => decide (key p = k)))

/-- `same_width_pack_order(pieces)`. -/
def same_width_pack_order (pieces : List HPiece) : List HPiece :=
  bucketOrder (fun p => p.w) pieces

/-- The shelf re-placement loop of `pack_horizontal`'s second pass: walk the
reordered pieces, inserting a cross cut (and a kerf-width gap) whenever the
width changes, and emit `(rects, new cuts, cross-cut count)`. -/
def rebuildGoH (kerf extra edge_trim shY shH : ℚ) :
    List HPiece → ℚ → Option ℚ → List Rect × List Cut × ℕ
  | [], _, _ => ([], [], 0)
  | p :: rest, cursor, prevw =>
    let addCut := match prevw with
      | none => false
      | some pw => decide (¬ pw = p.w)
    let cursor1 := if addCut then cursor + (kerf + extra) else cursor
    let cuts1 : List Cut := if addCut then
        [⟨cursor + edge_trim, shY + edge_trim, cursor + edge_trim, shY + shH + edge_trim, true⟩]
      else []
    let r : Rect := ⟨cursor1, shY, p.w, p.h, p.rot⟩
    let rec_ := rebuildGoH kerf extra edge_trim shY shH rest (cursor1 + p.w) (some p.w)
    (r :: rec_.1, cuts1 ++ rec_.2.1, (if addCut then 1 else 0) + rec_.2.2)

/-- Rebuild one shelf: reorder by same-width bundles and re-place from x = 0. -/
def rebuildShelfH (kerf extra edge_trim : ℚ) (sh : Shelf) : List Rect × List Cut × ℕ :=
  rebuildGoH kerf extra edge_trim sh.y sh.h (same_width_pack_order sh.pieces) 0 none

/-- Shift a rect by the edge margin (`pieces_draw` coordinates). -/
def shiftRect (edge_trim : ℚ) (r : Rect) : Rect :=
  { r with x := r.x + edge_trim, y := r.y + edge_trim }

/-- A board's `pieces_draw` entries, concatenated shelf by shelf. -/
def boardDrawH (kerf extra edge_trim : ℚ) (b : HBoard) : List Rect :=
  b.shelves.flatMap (fun sh => ((rebuildShelfH kerf extra edge_trim sh).1).map (shiftRect edge_trim))

/-- The cross cuts a board's rebuild appends to `b["cuts"]`. -/
def boardCrossCutsH (kerf extra edge_trim : ℚ) (b : HBoard) : List Cut :=
  b.shelves.flatMap (fun sh => (rebuildShelfH kerf extra edge_trim sh).2.1)

/-- The number of cross cuts a board's rebuild adds to `cut_count`. -/
def boardCrossCountH (kerf extra edge_trim : ℚ) (b : HBoard) : ℕ :=
  (b.shelves.map (fun sh => (rebuildShelfH kerf extra edge_trim sh).2.2)).sum

/-- Extend a cut line for drawing, with overhang `over = 20.0`. -/
def extendCut (edge_trim eff_w eff_h : ℚ) (c : Cut) : Cut :=
  if c.vertical then ⟨c.x1, -20 + edge_trim, c.x1, eff_h + edge_trim + 20, true⟩
  else ⟨-20 + edge_trim, c.y1, eff_w + edge_trim + 20, c.y1, false⟩

/-- The packers' return value
`(boards_draw, cuts_all, used_area, cut_count, len(boards))`. -/
structure PackResult where
  boards_draw : List (List Rect)
  cuts_all : List Cut
  used_area : ℚ
  cut_count : ℕ
  boards_n : ℕ
deriving DecidableEq, Repr

/-- `pack_horizontal(rows, board_w, board_h, eff_w, eff_h, shelf_h, kerf,
extra, edge_trim, rotate_ok)`. -/
def pack_horizontal (rows : List Row) (board_w board_h eff_w eff_h shelf_h kerf extra edge_trim : ℚ)
    (rotate_ok : Bool) : PackResult :=
  let unit := kerf + extra
  let expanded := sortByDesc (fun p => p.w * p.h) (expandedFor rows rotate_ok shelf_h)
  let s0 : HState := ⟨[], openNewShelfH unit eff_w shelf_h edge_trim ⟨[], 0, []⟩, 0⟩
  let s := expanded.foldl (stepH unit eff_w eff_h shelf_h edge_trim) s0
  let boards := s.closed ++ [s.cur]
  { boards_draw := boards.map (boardDrawH kerf extra edge_trim)
    cuts_all := boards.flatMap (fun b =>
      (b.cuts ++ boardCrossCutsH kerf extra edge_trim b).map (extendCut edge_trim eff_w eff_h))
    used_area := s.used
    cut_count := (boards.map (boardCrossCountH kerf extra edge_trim)).sum
      + (boards.map (fun b => if 2 ≤ b.shelves.length then b.shelves.length - 1 else 0)).sum
    boards_n := boards.length }

/-- A column dict of `pack_vertical`. -/
structure Col where
  x : ℚ
  y : ℚ
  w : ℚ
  cursor_y : ℚ
  placed : ℕ
  pieces : List HPiece
deriving DecidableEq, Repr

/-- A board dict of `pack_vertical`. -/
structure VBoard where
  cols : List Col
  used_w : ℚ
  cuts : List Cut
deriving DecidableEq, Repr

/-- `open_new_col()`: append a fresh column and record its cross line. -/
def openNewColV (unit eff_h col_w edge_trim : ℚ) (b : VBoard) : VBoard :=
  let x := b.used_w + (if b.cols.isEmpty then 0 else unit)
  let col : Col := ⟨x, 0, col_w, 0, 0, []⟩
  let cols2 := b.cols ++ [col]
  let xline := if cols2.length = 1 then edge_trim else x + edge_trim - unit
  ⟨cols2, x + col_w, b.cuts ++ [⟨xline, edge_trim, xline, eff_h + edge_trim, true⟩]⟩

/-- The `for col in cur["cols"]` placement attempt with `break`. -/
def tryPlaceColV (unit eff_h : ℚ) (p : HPiece) : List Col → Option (List Col)
  | [] => none
  | col :: rest =>
    if col.w < p.w then
      Option.map (fun r => col :: r) (tryPlaceColV unit eff_h p rest)
    else
      let need_h := p.h + (if 0 < col.placed then unit else 0)
      let remain := eff_h - col.cursor_y
      if need_h ≤ remain then
        some ({ col with
                pieces := col.pieces ++ [p]
                placed := col.placed + 1
                cursor_y := col.cursor_y + (if 1 < col.placed + 1 then need_h else p.h) } :: rest)
      else
        Option.map (fun r => col :: r) (tryPlaceColV unit eff_h p rest)

/-- Forced placement into the just-opened last column (`cur["cols"][-1]`). -/
def placeLastColV (p : HPiece) : List Col → List Col
  | [] => []
  | [col] => [{ col with
                pieces := col.pieces ++ [p]
                placed := col.placed + 1
                cursor_y := col.cursor_y + p.h }]
  | col :: rest => col :: placeLastColV p rest

/-- `pack_vertical`'s mutable state. -/
structure VState where
  closed : List VBoard
  cur : VBoard
  used : ℚ
deriving DecidableEq, Repr

/-- One iteration of `pack_vertical`'s main placement loop. -/
def stepV (unit eff_w eff_h col_w edge_trim : ℚ) (s : VState) (p : HPiece) : VState :=
  match tryPlaceColV unit eff_h p s.cur.cols with
  | some cols2 => ⟨s.closed, { s.cur with cols := cols2 }, s.used + p.w * p.h⟩
  | none =>
    let need_w := (if s.cur.cols.isEmpty then 0 else unit) + col_w
    if eff_w < s.cur.used_w + need_w then
      let nb := openNewColV unit eff_h col_w edge_trim ⟨[], 0, []⟩
      ⟨s.closed ++ [s.cur], { nb with cols := placeLastColV p nb.cols },
        s.used + p.w * p.h⟩
    else
      let b2 := openNewColV unit eff_h col_w edge_trim s.cur
      ⟨s.closed, { b2 with cols := placeLastColV p b2.cols }, s.used + p.w * p.h⟩

/-- The column re-placement loop of `pack_vertical`'s second pass: same-height
bundles, a rip cut (and kerf gap) whenever the height changes. -/
def rebuildGoV (kerf extra edge_trim eff_w colX : ℚ) :
    List HPiece → ℚ → Option ℚ → List Rect × List Cut × ℕ
  | [], _, _ => ([], [], 0)
  | p :: rest, cursor, prevh =>
    let addCut := match prevh with
      | none => false
      | some ph => decide (¬ ph = p.h)
    let cursor1 := if addCut then cursor + (kerf + extra) else cursor
    let cuts1 : List Cut := if addCut then
        [⟨edge_trim, cursor + edge_trim, eff_w + edge_trim, cursor + edge_trim, false⟩]
      else []
    let r : Rect := ⟨colX, cursor1, p.w, p.h, p.rot⟩
    let rec_ := rebuildGoV kerf extra edge_trim eff_w colX rest (cursor1 + p.h) (some p.h)
    (r :: rec_.1, cuts1 ++ rec_.2.1, (if addCut then 1 else 0) + rec_.2.2)

/-- Rebuild one column: reorder by same-height bundles and re-place from y = 0. -/
def rebuildColV (kerf extra edge_trim eff_w : ℚ) (col : Col) : List Rect × List Cut × ℕ :=
  rebuildGoV kerf extra edge_trim eff_w col.x (bucketOrder (fun p => p.h) col.pieces) 0 none

/-- A vertical board's `pieces_draw` entries, concatenated column by column. -/
def boardDrawV (kerf extra edge_trim eff_w : ℚ) (b : VBoard) : List Rect :=
  b.cols.flatMap (fun col => ((rebuildColV kerf extra edge_trim eff_w col).1).map (shiftRect edge_trim))

/-- The rip cuts a vertical board's rebuild appends to `b["cuts"]`. -/
def boardCrossCutsV (kerf extra edge_trim eff_w : ℚ) (b : VBoard) : List Cut :=
  b.cols.flatMap (fun col => (rebuildColV kerf extra edge_trim eff_w col).2.1)

/-- The number of rip cuts a vertical board's rebuild adds to `cut_count`. -/
def boardCrossCountV (kerf extra edge_trim eff_w : ℚ) (b : VBoard) : ℕ :=
  (b.cols.map (fun col => (rebuildColV kerf extra edge_trim eff_w col).2.2)).sum

/-- `pack_vertical(rows, board_w, board_h, eff_w, eff_h, col_w, kerf, extra,
edge_trim, rotate_ok)`. -/
def pack_vertical (rows : List Row) (board_w board_h eff_w eff_h col_w kerf extra edge_trim : ℚ)
    (rotate_ok : Bool) : PackResult :=
  let unit := kerf + extra
  let expanded := sortByDesc (fun p => p.w * p.h) (expandedFor rows rotate_ok col_w)
  let s0 : VState := ⟨[], openNewColV unit eff_h col_w edge_trim ⟨[], 0, []⟩, 0⟩
  let s := expanded.foldl (stepV unit eff_w eff_h col_w edge_trim) s0
  let boards := s.closed ++ [s.cur]
  { boards_draw := boards.map (boardDrawV kerf extra edge_trim eff_w)
    cuts_all := boards.flatMap (fun b =>
      (b.cuts ++ boardCrossCutsV kerf extra edge_trim eff_w b).map (extendCut edge_trim eff_w eff_h))
    used_area := s.used
    cut_count := (boards.map (boardCrossCountV kerf extra edge_trim eff_w)).sum
      + (boards.map (fun b => if 2 ≤ b.cols.length then b.cols.length - 1 else 0)).sum
    boards_n := boards.length }

/-- Insert into the strictly increasing duplicate-free list that models
Python's `sorted(set(vals))`. -/
def insDedupAsc (x : ℚ) : List ℚ → List ℚ
  | [] => [x]
  | y :: ys =>
    if x < y then x :: y :: ys else if x = y then y :: ys else y :: insDedupAsc x ys

/-- `sorted(set(l))`: the strictly increasing list of the distinct values. -/
def sortedDedupAsc (l : List ℚ) : List ℚ :=
  l.foldl (fun acc x => insDedupAsc x acc) []

/-- Python `max(l)` with a default for the empty list. -/
def maxListD : List ℚ → ℚ
  | [] => 100
  | x :: xs => xs.foldl max x

/-- The `vals` list of `candidate_heights`: every row's height, plus its
width when rotation is allowed. -/
def candVals (rows : List Row) (rotate_ok : Bool) : List ℚ :=
  rows.flatMap (fun r => if rotate_ok then [r.h, r.w] else [r.h])

/-- The `merged` list of `candidate_heights`: walk `sorted(set(vals))`
keeping a value only when it differs from the last kept one by more than
`tol`. -/
def candMerged (rows : List Row) (rotate_ok : Bool) (tol : ℚ) : List ℚ :=
  (sortedDedupAsc (candVals rows rotate_ok)).foldl
    (fun m v => if m.isEmpty ∨ tol < |m.getLastD 0 - v| then m ++ [v] else m) []

/-- `candidate_heights(rows, rotate_ok, max_k, tol)`: collect every row height
(plus widths when rotation is allowed), sort-deduplicate, merge values within
`tol` of the previously kept one, then keep the largest `max_k` in descending
order; a fallback singleton when everything is empty. -/
def candidate_heights (rows : List Row) (rotate_ok : Bool) (max_k : ℕ) (tol : ℚ) : List ℚ :=
  if ((sortByDesc id (candMerged rows rotate_ok tol)).take max_k).isEmpty then
    [max 1 (maxListD (candVals rows rotate_ok))]
  else (sortByDesc id (candMerged rows rotate_ok tol)).take max_k

/-- The candidate mode tag (`"H"` / `"V"`). -/
inductive PackMode
  | H
  | V
deriving DecidableEq, Repr

/-- A candidate record of `explore_and_choose`. -/
structure Cand where
  mode : PackMode
  param : ℚ
  boards_draw : List (List Rect)
  cuts_draw : List Cut
  used : ℚ
  waste : ℚ
  cuts : ℕ
  boards : ℕ
deriving DecidableEq, Repr

/-- Build the horizontal candidate record for one shelf height. -/
def candH (rows : List Row) (BW BH eff_w eff_h kerf extra edge : ℚ) (rotate_ok : Bool)
    (sh : ℚ) : Cand :=
  let res := pack_horizontal rows BW BH eff_w eff_h sh kerf extra edge rotate_ok
  { mode := PackMode.H
    param := sh
    boards_draw := res.boards_draw
    cuts_draw := res.cuts_all
    used := res.used_area
    waste := eff_w * eff_h * (res.boards_n : ℚ) - res.used_area
    cuts := res.cut_count
    boards := res.boards_n }

/-- Build the vertical candidate record for one column width. -/
def candV (rows : List Row) (BW BH eff_w eff_h kerf extra edge : ℚ) (rotate_ok : Bool)
    (cw : ℚ) : Cand :=
  let res := pack_vertical rows BW BH eff_w eff_h cw kerf extra edge rotate_ok
  { mode := PackMode.V
    param := cw
    boards_draw := res.boards_draw
    cuts_draw := res.cuts_all
    used := res.used_area
    waste := eff_w * eff_h * (res.boards_n : ℚ) - res.used_area
    cuts := res.cut_count
    boards := res.boards_n }

/-- `allc = horiz_candidates + vert_candidates`: both packers evaluated on the
same list of candidate parameters derived from the same demand. -/
def allCandidates (rows : List Row) (BW BH eff_w eff_h kerf extra edge : ℚ) (rotate_ok : Bool)
    (max_k : ℕ) (tol : ℚ) : List Cand :=
  (candidate_heights rows rotate_ok max_k tol).map
      (candH rows BW BH eff_w eff_h kerf extra edge rotate_ok)
    ++ (candidate_heights rows rotate_ok max_k tol).map
      (candV rows BW BH eff_w eff_h kerf extra edge rotate_ok)

/-- The lexicographic strict order used by Python's tuple-key sort. -/
def lexLt (a b : ℕ × ℚ) : Prop := a.1 < b.1 ∨ (a.1 = b.1 ∧ a.2 < b.2)

/-- The lexicographic weak order on the selection keys. -/
def lexLe (a b : ℕ × ℚ) : Prop := a.1 < b.1 ∨ (a.1 = b.1 ∧ a.2 ≤ b.2)

instance (a b : ℕ × ℚ) : Decidable (lexLt a b) :=
  inferInstanceAs (Decidable (a.1 < b.1 ∨ (a.1 = b.1 ∧ a.2 < b.2)))

instance (a b : ℕ × ℚ) : Decidable (lexLe a b) :=
  inferInstanceAs (Decidable (a.1 < b.1 ∨ (a.1 = b.1 ∧ a.2 ≤ b.2)))

/-- The key of the yield objective: `(boards, waste)`. -/
def keyYield (c : Cand) : ℕ × ℚ := (c.boards, c.waste)

/-- The key of the cuts objective: `(cuts, boards)`. -/
def keyCuts (c : Cand) : ℕ × ℚ := (c.cuts, (c.boards : ℚ))

/-- `sorted(allc, key=...)[0]`: the earliest candidate with the lexicographic
minimum key (Python's sort is stable). -/
def selectBest (key : Cand → ℕ × ℚ) : List Cand → Option Cand
  | [] => none
  | c :: rest =>
    some (rest.foldl (fun best x => if lexLt (key x) (key best) then x else best) c)

/-- `explore_and_choose(rows, BOARD_W, BOARD_H, kerf, extra, edge, rotate_ok,
max_h_candidates, merge_tol)`: `none` models the `(None, None, None, None)`
return when the margin consumes the sheet. -/
def explore_and_choose (rows : List Row) (BW BH kerf extra edge : ℚ) (rotate_ok : Bool)
    (max_k : ℕ) (tol : ℚ) : Option (Cand × Cand × ℚ × ℚ) :=
  if BW - 2 * edge ≤ 0 ∨ BH - 2 * edge ≤ 0 then none
  else
    match
      selectBest keyYield (allCandidates rows BW BH (BW - 2 * edge) (BH - 2 * edge)
        kerf extra edge rotate_ok max_k tol),
      selectBest keyCuts (allCandidates rows BW BH (BW - 2 * edge) (BH - 2 * edge)
        kerf extra edge rotate_ok max_k tol) with
    | some bestY, some bestC => some (bestY, bestC, BW - 2 * edge, BH - 2 * edge)
    | _, _ => none

/-- `used / (eff_w * eff_h * boards)`: the yield ratio the right-hand results
panel computes (display multiplies by 100). -/
def yieldRate (c : Cand) (eff_w eff_h : ℚ) : ℚ :=
  c.used / (eff_w * eff_h * (c.boards : ℚ))

/-- Modelled from the spec: the Geometric Validator's overlap check, which is
absent from `src` (only the packers and explorer are implemented).  Two placed
rectangles overlap when their x-intervals and y-intervals both strictly
intersect, with an `eps` tolerance so touching edges do not count. -/
def rectsOverlap (eps : ℚ) (a b : Rect) : Bool :=
  decide (max a.x b.x + eps < min (a.x + a.w) (b.x + b.w)
    ∧ max a.y b.y + eps < min (a.y + a.h) (b.y + b.h))

/-- Total number of `pieces_draw` entries across all boards of a result. -/
def totalPlaced (res : PackResult) : ℕ :=
  (res.boards_draw.map List.length).sum

/-- Total placed count of a candidate record. -/
def candPlaced (c : Cand) : ℕ :=
  (c.boards_draw.map List.length).sum

/-- The total demanded quantity: the sum of the `n` column over all rows. -/
def totalQty (rows : List Row) : ℕ :=
  (rows.map (fun r => r.n)).sum

/-- Sum of the areas of all drawn pieces of a candidate layout. -/
def sumRectAreas (bd : List (List Rect)) : ℚ :=
  (bd.map (fun l => (l.map (fun r => r.w * r.h)).sum)).sum

/-- Modelled from the spec (§4.1 Demand Expander, used only to state what the
spec demands of the expansion): one `(w, h)` per unit of quantity, preserving
the row order of demands and within-row unit order, keeping each row's
original width and height, with no deduplication. -/
def specExpandDims (rows : List Row) : List (ℚ × ℚ) :=
  rows.flatMap (fun r => List.replicate r.n (r.w, r.h))

/-- All pieces stored on a list of shelves, in shelf order. -/
def shelvesPieces (shs : List Shelf) : List HPiece :=
  shs.flatMap (fun sh => sh.pieces)

/-- All pieces stored on a horizontal board. -/
def hBoardPieces (b : HBoard) : List HPiece :=
  shelvesPieces b.shelves

/-- All pieces stored anywhere in a horizontal packing state. -/
def hStatePieces (s : HState) : List HPiece :=
  s.closed.flatMap hBoardPieces ++ hBoardPieces s.cur

/-- All pieces stored on a list of columns, in column order. -/
def colsPieces (cols : List Col) : List HPiece :=
  cols.flatMap (fun c => c.pieces)

/-- All pieces stored on a vertical board. -/
def vBoardPieces (b : VBoard) : List HPiece :=
  colsPieces b.cols

/-- All pieces stored anywhere in a vertical packing state. -/
def vStatePieces (s : VState) : List HPiece :=
  s.closed.flatMap vBoardPieces ++ vBoardPieces s.cur

/-- The `(w, h)` dimensions of a piece. -/
def pieceDims (p : HPiece) : ℚ × ℚ := (p.w, p.h)

/-- The `(w, h)` dimensions of a drawn rect. -/
def rectDims (r : Rect) : ℚ × ℚ := (r.w, r.h)

/-- Sum of `w * h` over a piece list. -/
def sumAreas (ps : List HPiece) : ℚ :=
  (ps.map (fun p => p.w * p.h)).sum

/-- The separation the rebuilt shelf imposes between two consecutive rects:
flush when the widths agree (same-width bundle), a kerf-plus-extra gap when
they differ (a cross cut sits between them). -/
def gapRel (kerf extra : ℚ) (a b : Rect) : Prop :=
  b.x = a.x + a.w + (if b.w = a.w then 0 else kerf + extra)

/-- The state after `pack_horizontal`'s main placement loop (pass 1); equal by
definition to the loop inside `pack_horizontal`. -/
def packHState (rows : List Row) (eff_w eff_h shelf_h kerf extra edge_trim : ℚ)
    (rotate_ok : Bool) : HState :=
  (sortByDesc (fun p => p.w * p.h) (expandedFor rows rotate_ok shelf_h)).foldl
    (stepH (kerf + extra) eff_w eff_h shelf_h edge_trim)
    ⟨[], openNewShelfH (kerf + extra) eff_w shelf_h edge_trim ⟨[], 0, []⟩, 0⟩

/-- The board list after `pack_horizontal`'s pass 1. -/
def packHBoards (rows : List Row) (eff_w eff_h shelf_h kerf extra edge_trim : ℚ)
    (rotate_ok : Bool) : List HBoard :=
  (packHState rows eff_w eff_h shelf_h kerf extra edge_trim rotate_ok).closed
    ++ [(packHState rows eff_w eff_h shelf_h kerf extra edge_trim rotate_ok).cur]

/-- The state after `pack_vertical`'s main placement loop (pass 1). -/
def packVState (rows : List Row) (eff_w eff_h col_w kerf extra edge_trim : ℚ)
    (rotate_ok : Bool) : VState :=
  (sortByDesc (fun p => p.w * p.h) (expandedFor rows rotate_ok col_w)).foldl
    (stepV (kerf + extra) eff_w eff_h col_w edge_trim)
    ⟨[], openNewColV (kerf + extra) eff_h col_w edge_trim ⟨[], 0, []⟩, 0⟩

/-- The board list after `pack_vertical`'s pass 1. -/
def packVBoards (rows : List Row) (eff_w eff_h col_w kerf extra edge_trim : ℚ)
    (rotate_ok : Bool) : List VBoard :=
  (packVState rows eff_w eff_h col_w kerf extra edge_trim rotate_ok).closed
    ++ [(packVState rows eff_w eff_h col_w kerf extra edge_trim rotate_ok).cur]

/-- The fold inside `selectBest`, named for the proofs: the earliest element
with lexicographically minimal key, starting from `b`. -/
def pickMin (key : Cand → ℕ × ℚ) (b : Cand) (l : List Cand) : Cand :=
  l.foldl (fun best x => if lexLt (key x) (key best) then x else best) b

/-- C2: the claim says no two placed pieces of a produced layout overlap.  The
code violates it: on a 100-wide effective area with shelf height 100 the
100×150 piece is force-placed on a fresh shelf spanning y ∈ [100, 250], and
the 50×100 piece is later placed on a shelf above at y ∈ [200, 300], so the
two drawn pieces strictly overlap (by a 50×50 region). -/
theorem c2_overlap_bug :
    (pack_horizontal [⟨100, 150, 1⟩, ⟨100, 100, 1⟩, ⟨50, 100, 1⟩]
        100 1000 100 1000 100 0 0 0 false).boards_draw
      = [[⟨0, 0, 100, 100, false⟩, ⟨0, 100, 100, 150, false⟩, ⟨0, 200, 50, 100, false⟩]]
    ∧ rectsOverlap (1 / 100) ⟨0, 100, 100, 150, false⟩ ⟨0, 200, 50, 100, false⟩ = true := by
  with_unfolding_all decide

/-- C6: the claim says every placed piece lies inside the effective interior.
The code violates the upper bounds: a 200×150 piece on a 100-wide effective
interior (edge 5) is force-placed and drawn at (5, 158) with width 200, so
`p.x + p.w = 205 > edge + eff_w = 105`. -/
theorem c6_containment_bug :
    (pack_horizontal [⟨200, 150, 1⟩] 110 1010 100 1000 150 3 0 5 false).boards_draw
      = [[⟨5, 158, 200, 150, false⟩]]
    ∧ ¬ ((5 : ℚ) + 200 ≤ 5 + 100) := by
  with_unfolding_all decide

/-- C7 counterexample: two pieces of equal width in the same shelf are placed
flush (`gap = 0`), which is below the kerf 3, refuting the claim when read as
"any two horizontally adjacent pieces in the same shelf keep a gap ≥ kerf". -/
theorem c7_counterexample :
    (pack_horizontal [⟨100, 100, 2⟩] 300 300 300 300 100 3 0 0 false).boards_draw
      = [[⟨0, 0, 100, 100, false⟩, ⟨100, 0, 100, 100, false⟩]]
    ∧ ((100 : ℚ) - (0 + 100) < 3) := by
  with_unfolding_all decide

/-- C5 counterexample: on rows `[(1,2)×1, (3,4)×1, (1,2)×1]` (no rotation) the
code bundles the two identical rows, so the expansion's dimension sequence is
`[(1,2), (1,2), (3,4)]` and not the row-order-preserving sequence
`[(1,2), (3,4), (1,2)]` the claim demands. -/
theorem c5_counterexample :
    (expandedFor [⟨1, 2, 1⟩, ⟨3, 4, 1⟩, ⟨1, 2, 1⟩] false 10).map (fun p => (p.w, p.h))
      ≠ specExpandDims [⟨1, 2, 1⟩, ⟨3, 4, 1⟩, ⟨1, 2, 1⟩] := by
  with_unfolding_all decide

set_option maxRecDepth 4000 in
/-- C3 counterexample: at Scenario B (two 1800×900 pieces, 1820×910 sheet,
margin 10, kerf 3, rotation allowed) the claim expects a fatal `PieceTooLarge`
with no layout, but `explore_and_choose` returns a result whose yield-best
candidate places both pieces (on separate boards). -/
theorem c3_counterexample :
    (explore_and_choose [⟨1800, 900, 2⟩] 1820 910 3 0 10 true 8 2).map
        (fun r => candPlaced r.1)
      = some 2 := by
  with_unfolding_all decide

/-- C4: when the edge margin consumes the sheet (`eff_w ≤ 0` or `eff_h ≤ 0`),
`explore_and_choose` returns `None` immediately, before any packing run, so no
sheets are produced. -/
theorem c4_no_effective_area (rows : List Row) (BW BH kerf extra edge : ℚ) (rotate_ok : Bool)
    (max_k : ℕ) (tol : ℚ) (h : BW - 2 * edge ≤ 0 ∨ BH - 2 * edge ≤ 0) :
    explore_and_choose rows BW BH kerf extra edge rotate_ok max_k tol = none := by
  unfold explore_and_choose
  exact if_pos h

/-- C4 witness: margin 500 on a 900×900 sheet gives `eff_w = eff_h = -100`,
and the explorer indeed returns `None`. -/
theorem c4_witness :
    ((900 : ℚ) - 2 * 500 ≤ 0 ∨ (900 : ℚ) - 2 * 500 ≤ 0)
    ∧ explore_and_choose [⟨1, 1, 1⟩] 900 900 3 0 500 true 8 2 = none :=
  ⟨Or.inl (by norm_num),
    c4_no_effective_area [⟨1, 1, 1⟩] 900 900 3 0 500 true 8 2 (Or.inl (by norm_num))⟩

/-- Inserting with `insertByDesc` is a permutation of consing. -/
theorem insertByDesc_perm {α : Type} (key : α → ℚ) (x : α) (l : List α) :
    insertByDesc key x l ~ x :: l := by
  induction l with
  | nil => exact List.Perm.refl _
  | cons y ys ih =>
    unfold insertByDesc
    by_cases h : key x ≤ key y
    · rw [if_pos h]
      exact (ih.cons y).trans (List.Perm.swap x y ys)
    · rw [if_neg h]

/-- The fold underlying `sortByDesc` permutes its input onto the accumulator. -/
theorem foldl_insertByDesc_perm {α : Type} (key : α → ℚ) (l : List α) (acc : List α) :
    l.foldl (fun a x => insertByDesc key x a) acc ~ l ++ acc := by
  induction l generalizing acc with
  | nil => simp
  | cons x xs ih =>
    simp only [List.foldl_cons, List.cons_append]
    exact ((ih _).trans ((insertByDesc_perm key x acc).append_left xs)).trans
      List.perm_middle

/-- `sortByDesc` is a permutation of its input. -/
theorem sortByDesc_perm {α : Type} (key : α → ℚ) (l : List α) :
    sortByDesc key l ~ l := by
  simpa using foldl_insertByDesc_perm key l []

/-- `insertByDesc` preserves sortedness by weakly decreasing key. -/
theorem insertByDesc_sorted {α : Type} (key : α → ℚ) (x : α) (l : List α)
    (h : l.Pairwise (fun a b => key b ≤ key a)) :
    (insertByDesc key x l).Pairwise (fun a b => key b ≤ key a) := by
  induction l with
  | nil => simp [insertByDesc]
  | cons y ys ih =>
    rcases h with _ | ⟨hy, hys⟩
    unfold insertByDesc
    by_cases hxy : key x ≤ key y
    · rw [if_pos hxy]
      refine List.Pairwise.cons ?_ (ih hys)
      intro z hz
      rcases List.mem_cons.mp ((insertByDesc_perm key x ys).mem_iff.mp hz) with rfl | hz
      · exact hxy
      · exact hy z hz
    · rw [if_neg hxy]
      refine List.Pairwise.cons ?_ (List.Pairwise.cons hy hys)
      intro z hz
      rcases List.mem_cons.mp hz with rfl | hz
      · exact le_of_not_le hxy
      · exact le_trans (hy z hz) (le_of_not_le hxy)

/-- The fold underlying `sortByDesc` preserves sortedness of the accumulator. -/
theorem foldl_insertByDesc_sorted {α : Type} (key : α → ℚ) (l : List α) (acc : List α)
    (h : acc.Pairwise (fun a b => key b ≤ key a)) :
    (l.foldl (fun a x => insertByDesc key x a) acc).Pairwise (fun a b => key b ≤ key a) := by
  induction l generalizing acc with
  | nil => exact h
  | cons x xs ih => exact ih _ (insertByDesc_sorted key x acc h)

/-- `sortByDesc` sorts by weakly decreasing key. -/
theorem sortByDesc_sorted {α : Type} (key : α → ℚ) (l : List α) :
    (sortByDesc key l).Pairwise (fun a b => key b ≤ key a) :=
  foldl_insertByDesc_sorted key l [] (List.Pairwise.nil)

/-- Pointwise permutation of the pieces gives a permutation of `flatMap`. -/
theorem flatMap_perm_congr {α β : Type} (l : List α) (f g : α → List β)
    (h : ∀ x ∈ l, f x ~ g x) : l.flatMap f ~ l.flatMap g := by
  induction l with
  | nil => exact List.Perm.refl _
  | cons x xs ih =>
    simp only [List.flatMap_cons]
    exact (h x (List.mem_cons_self x xs)).append
      (ih (fun y hy => h y (List.mem_cons_of_mem x hy)))

/-- `flatMap` respects pointwise equality of the piecewise lists. -/
theorem flatMap_congr_mem {α β : Type} (l : List α) (f g : α → List β)
    (h : ∀ x ∈ l, f x = g x) : l.flatMap f = l.flatMap g := by
  induction l with
  | nil => rfl
  | cons x xs ih =>
    simp only [List.flatMap_cons, h x (List.mem_cons_self x xs)]
    rw [ih (fun y hy => h y (List.mem_cons_of_mem x hy))]

/-- Concatenating the fibers of a key over a duplicate-free, covering list of
key values permutes the original list. -/
theorem fibers_perm (key : HPiece → ℚ) :
    ∀ ws : List ℚ, ws.Nodup → ∀ l : List HPiece, (∀ p ∈ l, key p ∈ ws) →
      (ws.flatMap (fun k => l.filter (fun p => decide (key p = k)))) ~ l := by
  intro ws
  induction ws with
  | nil =>
    intro _ l hall
    have : l = [] := List.eq_nil_iff_forall_not_mem.mpr (fun p hp => by
      simpa using hall p hp)
    simp [this]
  | cons a tail ih =>
    intro hd l hall
    rcases List.nodup_cons.mp hd with ⟨ha, hdt⟩
    simp only [List.flatMap_cons]
    have hfib : ∀ k ∈ tail,
        l.filter (fun p => decide (key p = k))
          = (l.filter (fun p => !decide (key p = a))).filter (fun p => decide (key p = k)) := by
      intro k hk
      rw [List.filter_filter]
      refine (List.filter_congr ?_).symm
      intro p _
      by_cases hpk : key p = k
      · have hpa : ¬ key p = a := fun hpe => ha (by
          rw [hpe.symm.trans hpk]
          exact hk)
        have hka : ¬ k = a := fun hka => hpa (hpk.trans hka)
        simp [hpk, hpa, hka]
      · simp [hpk]
    have hall2 : ∀ p ∈ l.filter (fun p => !decide (key p = a)), key p ∈ tail := by
      intro p hp
      rcases List.mem_filter.mp hp with ⟨hpl, hpa⟩
      have hne : ¬ key p = a := by simpa using hpa
      rcases List.mem_cons.mp (hall p hpl) with h1 | h1
      · exact absurd h1 hne
      · exact h1
    calc l.filter (fun p => decide (key p = a))
          ++ tail.flatMap (fun k => l.filter (fun p => decide (key p = k)))
        = l.filter (fun p => decide (key p = a))
          ++ tail.flatMap (fun k =>
              (l.filter (fun p => !decide (key p = a))).filter (fun p => decide (key p = k))) := by
          rw [flatMap_congr_mem tail _ _ hfib]
      _ ~ l.filter (fun p => decide (key p = a)) ++ l.filter (fun p => !decide (key p = a)) :=
          (ih hdt _ hall2).append_left _
      _ ~ l := List.filter_append_perm _ l

/-- The fold underlying `dedupKeys` yields a duplicate-free accumulator that
contains every processed key. -/
theorem dedupKeys_aux (key : HPiece → ℚ) (l : List HPiece) :
    ∀ acc : List ℚ, acc.Nodup →
      (l.foldl (fun a p => if key p ∈ a then a else a ++ [key p]) acc).Nodup
      ∧ (∀ k ∈ acc, k ∈ l.foldl (fun a p => if key p ∈ a then a else a ++ [key p]) acc)
      ∧ (∀ p ∈ l, key p ∈ l.foldl (fun a p => if key p ∈ a then a else a ++ [key p]) acc) := by
  induction l with
  | nil =>
    intro acc hacc
    exact ⟨hacc, fun k hk => hk, fun p hp => absurd hp (List.not_mem_nil p)⟩
  | cons x xs ih =>
    intro acc hacc
    simp only [List.foldl_cons]
    by_cases hx : key x ∈ acc
    · rw [if_pos hx]
      rcases ih acc hacc with ⟨h1, h2, h3⟩
      refine ⟨h1, h2, fun p hp => ?_⟩
      rcases List.mem_cons.mp hp with rfl | hp
      · exact h2 _ hx
      · exact h3 p hp
    · rw [if_neg hx]
      have hacc2 : (acc ++ [key x]).Nodup := by
        simp [List.nodup_append, hacc, hx]
      rcases ih (acc ++ [key x]) hacc2 with ⟨h1, h2, h3⟩
      refine ⟨h1, fun k hk => h2 k (List.mem_append_left _ hk), fun p hp => ?_⟩
      rcases List.mem_cons.mp hp with rfl | hp
      · exact h2 _ (List.mem_append_right _ (List.mem_singleton.mpr rfl))
      · exact h3 p hp

/-- `dedupKeys` is duplicate-free. -/
theorem dedupKeys_nodup (key : HPiece → ℚ) (l : List HPiece) :
    (dedupKeys key l).Nodup :=
  (dedupKeys_aux key l [] List.nodup_nil).1

/-- Every key of the list occurs among its `dedupKeys`. -/
theorem dedupKeys_complete (key : HPiece → ℚ) (l : List HPiece) :
    ∀ p ∈ l, key p ∈ dedupKeys key l :=
  (dedupKeys_aux key l [] List.nodup_nil).2.2

/-- `bucketOrder` is a permutation of its input. -/
theorem bucketOrder_perm (key : HPiece → ℚ) (l : List HPiece) :
    bucketOrder key l ~ l := by
  refine fibers_perm key _ ?_ l ?_
  · exact ((sortByDesc_perm id (dedupKeys key l)).nodup_iff).mpr (dedupKeys_nodup key l)
  · intro p hp
    exact (sortByDesc_perm id (dedupKeys key l)).mem_iff.mpr (dedupKeys_complete key l p hp)

/-- The shelf rebuild keeps each piece's dimensions, in order. -/
theorem rebuildGoH_dims (kerf extra edge_trim shY shH : ℚ) (ps : List HPiece) :
    ∀ (c : ℚ) (pw : Option ℚ),
      ((rebuildGoH kerf extra edge_trim shY shH ps c pw).1).map rectDims = ps.map pieceDims := by
  induction ps with
  | nil => intro c pw; rfl
  | cons p rest ih =>
    intro c pw
    simp only [rebuildGoH, List.map_cons]
    exact congrArg (List.cons _) (ih _ _)

/-- Unfolding lemma for one step of the rebuild loop. -/
theorem rebuildGoH_cons (kerf extra edge_trim shY shH : ℚ) (p : HPiece) (ps : List HPiece)
    (c : ℚ) (pw : Option ℚ) (c1 : ℚ)
    (hc1 : c1 = if (match pw with
        | none => false
        | some pw0 => decide (¬ pw0 = p.w)) = true then c + (kerf + extra) else c) :
    (rebuildGoH kerf extra edge_trim shY shH (p :: ps) c pw).1
      = (⟨c1, shY, p.w, p.h, p.rot⟩ : Rect)
        :: (rebuildGoH kerf extra edge_trim shY shH ps (c1 + p.w) (some p.w)).1 := by
  subst hc1
  rfl

/-- C7 amended, core lemma: along the rebuilt rect list of a shelf, every
consecutive pair satisfies `gapRel`: flush when the widths agree, separated by
exactly `kerf + extra` when they differ. -/
theorem rebuildGoH_chain (kerf extra edge_trim shY shH : ℚ) (ps : List HPiece) :
    ∀ (c : ℚ) (pw : Option ℚ),
      List.Chain' (gapRel kerf extra) ((rebuildGoH kerf extra edge_trim shY shH ps c pw).1) := by
  induction ps with
  | nil => intro c pw; simp [rebuildGoH]
  | cons p rest ih =>
    intro c pw
    rw [rebuildGoH_cons kerf extra edge_trim shY shH p rest c pw _ rfl]
    cases rest with
    | nil => simp [rebuildGoH]
    | cons p2 rest2 =>
      rw [rebuildGoH_cons kerf extra edge_trim shY shH p2 rest2 _ (some p.w) _ rfl]
      refine List.chain'_cons.mpr ⟨?_, ?_⟩
      · unfold gapRel
        by_cases hw : p2.w = p.w
        · simp [hw]
        · have hw2 : ¬ p.w = p2.w := fun h => hw h.symm
          simp [hw, hw2]
      · rw [← rebuildGoH_cons kerf extra edge_trim shY shH p2 rest2 _ (some p.w) _ rfl]
        exact ih _ _

/-- `shelvesPieces` distributes over cons. -/
theorem shelvesPieces_cons (sh : Shelf) (rest : List Shelf) :
    shelvesPieces (sh :: rest) = sh.pieces ++ shelvesPieces rest := by
  simp [shelvesPieces]

/-- Appending one piece to a list inside an append chain, as a permutation. -/
theorem append_singleton_perm {α : Type} (a b : List α) (p : α) :
    (a ++ [p]) ++ b ~ (a ++ b) ++ [p] := by
  calc (a ++ [p]) ++ b = a ++ ([p] ++ b) := by rw [List.append_assoc]
    _ ~ a ++ (b ++ [p]) := (List.perm_append_comm).append_left a
    _ = (a ++ b) ++ [p] := by rw [List.append_assoc]

/-- A successful in-shelf placement adds exactly the placed piece to the
stored pieces, up to permutation. -/
theorem tryPlaceShelfH_perm (unit eff_w : ℚ) (p : HPiece) :
    ∀ (shs shs2 : List Shelf), tryPlaceShelfH unit eff_w p shs = some shs2 →
      shelvesPieces shs2 ~ shelvesPieces shs ++ [p] := by
  intro shs
  induction shs with
  | nil => intro shs2 h; exact absurd h (by simp [tryPlaceShelfH])
  | cons sh rest ih =>
    intro shs2 h
    unfold tryPlaceShelfH at h
    by_cases h1 : sh.h < p.h
    · rw [if_pos h1] at h
      rcases Option.map_eq_some'.mp h with ⟨r, hr, rfl⟩
      rw [shelvesPieces_cons, shelvesPieces_cons]
      exact ((ih r hr).append_left sh.pieces).trans
        (by rw [← List.append_assoc])
    · rw [if_neg h1] at h
      by_cases h2 : p.w + (if 0 < sh.placed then unit else 0) ≤ eff_w - sh.cursor_x
      · rw [if_pos h2] at h
        rcases Option.some.inj h with rfl
        rw [shelvesPieces_cons, shelvesPieces_cons]
        exact append_singleton_perm sh.pieces (shelvesPieces rest) p
      · rw [if_neg h2] at h
        rcases Option.map_eq_some'.mp h with ⟨r, hr, rfl⟩
        rw [shelvesPieces_cons, shelvesPieces_cons]
        exact ((ih r hr).append_left sh.pieces).trans
          (by rw [← List.append_assoc])

/-- Forced placement into the last shelf appends the piece at the very end of
the stored pieces. -/
theorem placeLastShelfH_pieces (p : HPiece) :
    ∀ shs : List Shelf, shs ≠ [] →
      shelvesPieces (placeLastShelfH p shs) = shelvesPieces shs ++ [p] := by
  intro shs
  induction shs with
  | nil => intro h; exact absurd rfl h
  | cons sh rest ih =>
    intro _
    cases rest with
    | nil => simp [placeLastShelfH, shelvesPieces]
    | cons sh2 rest2 =>
      have : placeLastShelfH p (sh :: sh2 :: rest2) = sh :: placeLastShelfH p (sh2 :: rest2) := rfl
      rw [this, shelvesPieces_cons, shelvesPieces_cons, ih (by simp), List.append_assoc]

/-- Opening a new shelf stores no new piece. -/
theorem openNewShelfH_pieces (unit eff_w shelf_h edge_trim : ℚ) (b : HBoard) :
    hBoardPieces (openNewShelfH unit eff_w shelf_h edge_trim b) = hBoardPieces b := by
  simp [openNewShelfH, hBoardPieces, shelvesPieces]

/-- A board never has an empty shelf list after opening a shelf. -/
theorem openNewShelfH_ne_nil (unit eff_w shelf_h edge_trim : ℚ) (b : HBoard) :
    (openNewShelfH unit eff_w shelf_h edge_trim b).shelves ≠ [] := by
  simp [openNewShelfH]

/-- One main-loop iteration stores exactly the processed piece, up to
permutation. -/
theorem stepH_pieces_perm (unit eff_w eff_h shelf_h edge_trim : ℚ) (s : HState) (p : HPiece) :
    hStatePieces (stepH unit eff_w eff_h shelf_h edge_trim s p) ~ hStatePieces s ++ [p] := by
  unfold stepH
  cases htry : tryPlaceShelfH unit eff_w p s.cur.shelves with
  | some shelves2 =>
    simp only [hStatePieces, hBoardPieces]
    have := tryPlaceShelfH_perm unit eff_w p s.cur.shelves shelves2 htry
    exact (this.append_left _).trans (by rw [← List.append_assoc])
  | none =>
    by_cases hover : eff_h < s.cur.used_h + ((if s.cur.shelves.isEmpty then 0 else unit) + shelf_h)
    · rw [if_pos hover]
      simp only [hStatePieces, hBoardPieces, List.flatMap_append, List.flatMap_cons,
        List.flatMap_nil, List.append_nil]
      rw [placeLastShelfH_pieces p _ (openNewShelfH_ne_nil unit eff_w shelf_h edge_trim ⟨[], 0, []⟩)]
      have hopen : shelvesPieces (openNewShelfH unit eff_w shelf_h edge_trim ⟨[], 0, []⟩).shelves
          = ([] : List HPiece) := by
        simp [openNewShelfH, shelvesPieces]
      rw [hopen]
      simp [List.append_assoc]
    · rw [if_neg hover]
      simp only [hStatePieces, hBoardPieces]
      rw [placeLastShelfH_pieces p _ (openNewShelfH_ne_nil unit eff_w shelf_h edge_trim s.cur)]
      have hopen : shelvesPieces (openNewShelfH unit eff_w shelf_h edge_trim s.cur).shelves
          = shelvesPieces s.cur.shelves := openNewShelfH_pieces unit eff_w shelf_h edge_trim s.cur
      rw [hopen, ← List.append_assoc]

/-- Folding the main loop over a piece list appends exactly those pieces to
the stored pieces, up to permutation. -/
theorem foldl_stepH_pieces (unit eff_w eff_h shelf_h edge_trim : ℚ) (ps : List HPiece) :
    ∀ s : HState,
      hStatePieces (ps.foldl (stepH unit eff_w eff_h shelf_h edge_trim) s) ~ hStatePieces s ++ ps := by
  induction ps with
  | nil => intro s; simp
  | cons p rest ih =>
    intro s
    simp only [List.foldl_cons]
    refine (ih _).trans ?_
    refine ((stepH_pieces_perm unit eff_w eff_h shelf_h edge_trim s p).append_right rest).trans ?_
    rw [List.append_assoc, List.singleton_append]

/-- One main-loop iteration adds the piece's area to `used_area`. -/
theorem stepH_used (unit eff_w eff_h shelf_h edge_trim : ℚ) (s : HState) (p : HPiece) :
    (stepH unit eff_w eff_h shelf_h edge_trim s p).used = s.used + p.w * p.h := by
  unfold stepH
  cases htry : tryPlaceShelfH unit eff_w p s.cur.shelves with
  | some shelves2 => rfl
  | none =>
    by_cases hover : eff_h < s.cur.used_h + ((if s.cur.shelves.isEmpty then 0 else unit) + shelf_h)
    · rw [if_pos hover]
    · rw [if_neg hover]

/-- Folding the main loop accumulates the summed areas into `used_area`. -/
theorem foldl_stepH_used (unit eff_w eff_h shelf_h edge_trim : ℚ) (ps : List HPiece) :
    ∀ s : HState,
      (ps.foldl (stepH unit eff_w eff_h shelf_h edge_trim) s).used = s.used + sumAreas ps := by
  induction ps with
  | nil => intro s; simp [sumAreas]
  | cons p rest ih =>
    intro s
    simp only [List.foldl_cons]
    rw [ih, stepH_used]
    simp [sumAreas, add_assoc]

/-- `pack_horizontal`'s `boards_draw`, through the pass-1 board list. -/
theorem pack_horizontal_boards_draw (rows : List Row)
    (bw bh eff_w eff_h shelf_h kerf extra edge_trim : ℚ) (rot : Bool) :
    (pack_horizontal rows bw bh eff_w eff_h shelf_h kerf extra edge_trim rot).boards_draw
      = (packHBoards rows eff_w eff_h shelf_h kerf extra edge_trim rot).map
          (boardDrawH kerf extra edge_trim) := rfl

/-- `pack_horizontal`'s `used_area`, through the pass-1 state. -/
theorem pack_horizontal_used_area (rows : List Row)
    (bw bh eff_w eff_h shelf_h kerf extra edge_trim : ℚ) (rot : Bool) :
    (pack_horizontal rows bw bh eff_w eff_h shelf_h kerf extra edge_trim rot).used_area
      = (packHState rows eff_w eff_h shelf_h kerf extra edge_trim rot).used := rfl

/-- Drawn dimensions of one rebuilt board are a permutation of its stored
pieces' dimensions. -/
theorem boardDrawH_dims (kerf extra edge_trim : ℚ) (b : HBoard) :
    (boardDrawH kerf extra edge_trim b).map rectDims ~ (hBoardPieces b).map pieceDims := by
  unfold boardDrawH hBoardPieces shelvesPieces
  rw [List.map_flatMap, List.map_flatMap]
  refine flatMap_perm_congr _ _ _ ?_
  intro sh _
  have h1 : ((rebuildShelfH kerf extra edge_trim sh).1.map (shiftRect edge_trim)).map rectDims
      = (same_width_pack_order sh.pieces).map pieceDims := by
    rw [List.map_map]
    have h2 : rectDims ∘ shiftRect edge_trim = rectDims := funext (fun r => rfl)
    rw [h2]
    exact rebuildGoH_dims kerf extra edge_trim sh.y sh.h (same_width_pack_order sh.pieces) 0 none
  rw [h1]
  exact (bucketOrder_perm _ sh.pieces).map pieceDims

/-- The pieces stored across all pass-1 boards are a permutation of the
sorted expansion. -/
theorem packHBoards_pieces_perm (rows : List Row)
    (eff_w eff_h shelf_h kerf extra edge_trim : ℚ) (rot : Bool) :
    (packHBoards rows eff_w eff_h shelf_h kerf extra edge_trim rot).flatMap hBoardPieces
      ~ sortByDesc (fun p => p.w * p.h) (expandedFor rows rot shelf_h) := by
  unfold packHBoards
  have h1 : ((packHState rows eff_w eff_h shelf_h kerf extra edge_trim rot).closed
        ++ [(packHState rows eff_w eff_h shelf_h kerf extra edge_trim rot).cur]).flatMap hBoardPieces
      = hStatePieces (packHState rows eff_w eff_h shelf_h kerf extra edge_trim rot) := by
    simp [hStatePieces, List.flatMap_append]
  rw [h1]
  unfold packHState
  refine (foldl_stepH_pieces (kerf + extra) eff_w eff_h shelf_h edge_trim _ _).trans ?_
  have h2 : hStatePieces ⟨[], openNewShelfH (kerf + extra) eff_w shelf_h edge_trim ⟨[], 0, []⟩, 0⟩
      = ([] : List HPiece) := by
    simp [hStatePieces, hBoardPieces, openNewShelfH, shelvesPieces]
  rw [h2, List.nil_append]

/-- Dimensions of everything drawn by `pack_horizontal` are a permutation of
the expansion's dimensions. -/
theorem packH_flat_dims (rows : List Row)
    (bw bh eff_w eff_h shelf_h kerf extra edge_trim : ℚ) (rot : Bool) :
    ((pack_horizontal rows bw bh eff_w eff_h shelf_h kerf extra edge_trim rot).boards_draw.flatten).map rectDims
      ~ (expandedFor rows rot shelf_h).map pieceDims := by
  rw [pack_horizontal_boards_draw]
  rw [← List.flatMap_def, List.map_flatMap]
  refine List.Perm.trans (flatMap_perm_congr _ _
    (fun b => (hBoardPieces b).map pieceDims) (fun b _ => boardDrawH_dims kerf extra edge_trim b)) ?_
  rw [← List.map_flatMap]
  exact ((packHBoards_pieces_perm rows eff_w eff_h shelf_h kerf extra edge_trim rot).trans
    (sortByDesc_perm _ _)).map pieceDims

/-- Sum of the quantities of a bundled list after one `bundleAdd`. -/
theorem bundleAdd_sum (key : ℚ × ℚ) (n : ℕ) :
    ∀ acc : List ((ℚ × ℚ) × ℕ),
      ((bundleAdd acc key n).map (fun kc => kc.2)).sum = ((acc.map (fun kc => kc.2)).sum) + n := by
  intro acc
  induction acc with
  | nil => simp [bundleAdd]
  | cons kc rest ih =>
    rcases kc with ⟨k, c⟩
    unfold bundleAdd
    by_cases hk : k = key
    · rw [if_pos hk]
      simp [Nat.add_assoc, Nat.add_comm c n, Nat.add_left_comm]
      omega
    · rw [if_neg hk]
      simp only [List.map_cons, List.sum_cons, ih]
      omega

/-- The bundling fold preserves the total quantity. -/
theorem foldl_bundle_sum (rot : Bool) (l : List Row) :
    ∀ acc : List ((ℚ × ℚ) × ℕ),
      (((l.foldl (fun a r => bundleAdd a (normalize_dim r.w r.h rot) r.n) acc)).map
          (fun kc => kc.2)).sum
        = (acc.map (fun kc => kc.2)).sum + (l.map (fun r => r.n)).sum := by
  induction l with
  | nil => intro acc; simp
  | cons r rest ih =>
    intro acc
    simp only [List.foldl_cons, List.map_cons, List.sum_cons]
    rw [ih, bundleAdd_sum]
    omega

/-- `demand_bundled` preserves the total demanded quantity. -/
theorem demand_bundled_qty (rows : List Row) (rot : Bool) :
    ((demand_bundled rows rot).map (fun t => t.2.2)).sum = totalQty rows := by
  unfold demand_bundled totalQty
  rw [List.map_map]
  have h1 : ((fun t : ℚ × ℚ × ℕ => t.2.2) ∘ fun kc : (ℚ × ℚ) × ℕ => (kc.1.1, kc.1.2, kc.2))
      = fun kc : (ℚ × ℚ) × ℕ => kc.2 := funext (fun kc => rfl)
  rw [h1]
  simpa using foldl_bundle_sum rot rows []

/-- The expansion emits one piece per demanded unit. -/
theorem expandGo_length (rot : Bool) (fixed : ℚ) :
    ∀ (bund : List (ℚ × ℚ × ℕ)) (idx : ℕ),
      (expandGo rot fixed bund idx).length = (bund.map (fun t => t.2.2)).sum := by
  intro bund
  induction bund with
  | nil => intro idx; rfl
  | cons t rest ih =>
    intro idx
    rcases t with ⟨w, h, n⟩
    simp [expandGo, ih]

/-- `expandedFor` has exactly `totalQty rows` pieces. -/
theorem expandedFor_length (rows : List Row) (rot : Bool) (fixed : ℚ) :
    (expandedFor rows rot fixed).length = totalQty rows := by
  unfold expandedFor
  rw [expandGo_length, demand_bundled_qty]

/-- `totalPlaced` through the flattened draw list. -/
theorem totalPlaced_eq_flatten (res : PackResult) :
    totalPlaced res = res.boards_draw.flatten.length := by
  simp [totalPlaced, List.length_flatten]

/-- `sumRectAreas` through the flattened draw list. -/
theorem sumRectAreas_eq_flatten (bd : List (List Rect)) :
    sumRectAreas bd = ((bd.flatten).map (fun r => r.w * r.h)).sum := by
  induction bd with
  | nil => rfl
  | cons l rest ih =>
    simp only [sumRectAreas, List.map_cons, List.sum_cons, List.flatten_cons,
      List.map_append, List.sum_append]
    rw [← ih]
    rfl

/-- Conservation for `pack_horizontal`: the number of drawn pieces equals the
total demanded quantity. -/
theorem packH_conservation (rows : List Row)
    (bw bh eff_w eff_h shelf_h kerf extra edge_trim : ℚ) (rot : Bool) :
    totalPlaced (pack_horizontal rows bw bh eff_w eff_h shelf_h kerf extra edge_trim rot)
      = totalQty rows := by
  rw [totalPlaced_eq_flatten]
  have h1 := (packH_flat_dims rows bw bh eff_w eff_h shelf_h kerf extra edge_trim rot).length_eq
  rw [List.length_map, List.length_map] at h1
  rw [h1, expandedFor_length]

/-- A list permutation gives equal sums after mapping. -/
theorem perm_map_sum (f : ℚ × ℚ → ℚ) (l1 l2 : List (ℚ × ℚ)) (h : l1 ~ l2) :
    (l1.map f).sum = (l2.map f).sum :=
  (h.map f).sum_eq

/-- `used_area` of `pack_horizontal` equals the summed area of everything it
draws. -/
theorem packH_used_eq (rows : List Row)
    (bw bh eff_w eff_h shelf_h kerf extra edge_trim : ℚ) (rot : Bool) :
    (pack_horizontal rows bw bh eff_w eff_h shelf_h kerf extra edge_trim rot).used_area
      = sumRectAreas
          (pack_horizontal rows bw bh eff_w eff_h shelf_h kerf extra edge_trim rot).boards_draw := by
  rw [pack_horizontal_used_area, sumRectAreas_eq_flatten]
  unfold packHState
  rw [foldl_stepH_used]
  have h0 : (⟨[], openNewShelfH (kerf + extra) eff_w shelf_h edge_trim ⟨[], 0, []⟩, 0⟩ : HState).used
      = 0 := rfl
  rw [h0, zero_add]
  have hperm := packH_flat_dims rows bw bh eff_w eff_h shelf_h kerf extra edge_trim rot
  have h2 : (((pack_horizontal rows bw bh eff_w eff_h shelf_h kerf extra edge_trim
        rot).boards_draw.flatten.map rectDims).map (fun d => d.1 * d.2)).sum
      = (((expandedFor rows rot shelf_h).map pieceDims).map (fun d => d.1 * d.2)).sum :=
    perm_map_sum _ _ _ hperm
  rw [List.map_map, List.map_map] at h2
  have h3 : ((fun d : ℚ × ℚ => d.1 * d.2) ∘ rectDims) = fun r : Rect => r.w * r.h :=
    funext (fun r => rfl)
  have h4 : ((fun d : ℚ × ℚ => d.1 * d.2) ∘ pieceDims) = fun p : HPiece => p.w * p.h :=
    funext (fun p => rfl)
  rw [h3, h4] at h2
  rw [h2]
  have h5 := ((sortByDesc_perm (fun p : HPiece => p.w * p.h)
      (expandedFor rows rot shelf_h)).map (fun p : HPiece => p.w * p.h)).sum_eq
  unfold sumAreas
  exact h5

/-- `colsPieces` distributes over cons. -/
theorem colsPieces_cons (col : Col) (rest : List Col) :
    colsPieces (col :: rest) = col.pieces ++ colsPieces rest := by
  simp [colsPieces]

/-- A successful in-column placement adds exactly the placed piece, up to
permutation. -/
theorem tryPlaceColV_perm (unit eff_h : ℚ) (p : HPiece) :
    ∀ (cols cols2 : List Col), tryPlaceColV unit eff_h p cols = some cols2 →
      colsPieces cols2 ~ colsPieces cols ++ [p] := by
  intro cols
  induction cols with
  | nil => intro cols2 h; exact absurd h (by simp [tryPlaceColV])
  | cons col rest ih =>
    intro cols2 h
    unfold tryPlaceColV at h
    by_cases h1 : col.w < p.w
    · rw [if_pos h1] at h
      rcases Option.map_eq_some'.mp h with ⟨r, hr, rfl⟩
      rw [colsPieces_cons, colsPieces_cons]
      exact ((ih r hr).append_left col.pieces).trans (by rw [← List.append_assoc])
    · rw [if_neg h1] at h
      by_cases h2 : p.h + (if 0 < col.placed then unit else 0) ≤ eff_h - col.cursor_y
      · rw [if_pos h2] at h
        rcases Option.some.inj h with rfl
        rw [colsPieces_cons, colsPieces_cons]
        exact append_singleton_perm col.pieces (colsPieces rest) p
      · rw [if_neg h2] at h
        rcases Option.map_eq_some'.mp h with ⟨r, hr, rfl⟩
        rw [colsPieces_cons, colsPieces_cons]
        exact ((ih r hr).append_left col.pieces).trans (by rw [← List.append_assoc])

/-- Forced placement into the last column appends the piece at the end. -/
theorem placeLastColV_pieces (p : HPiece) :
    ∀ cols : List Col, cols ≠ [] →
      colsPieces (placeLastColV p cols) = colsPieces cols ++ [p] := by
  intro cols
  induction cols with
  | nil => intro h; exact absurd rfl h
  | cons col rest ih =>
    intro _
    cases rest with
    | nil => simp [placeLastColV, colsPieces]
    | cons c2 rest2 =>
      have : placeLastColV p (col :: c2 :: rest2) = col :: placeLastColV p (c2 :: rest2) := rfl
      rw [this, colsPieces_cons, colsPieces_cons, ih (by simp), List.append_assoc]

/-- Opening a new column stores no new piece. -/
theorem openNewColV_pieces (unit eff_h col_w edge_trim : ℚ) (b : VBoard) :
    vBoardPieces (openNewColV unit eff_h col_w edge_trim b) = vBoardPieces b := by
  simp [openNewColV, vBoardPieces, colsPieces]

/-- The column list is nonempty after opening a column. -/
theorem openNewColV_ne_nil (unit eff_h col_w edge_trim : ℚ) (b : VBoard) :
    (openNewColV unit eff_h col_w edge_trim b).cols ≠ [] := by
  simp [openNewColV]

/-- One vertical main-loop iteration stores exactly the processed piece, up to
permutation. -/
theorem stepV_pieces_perm (unit eff_w eff_h col_w edge_trim : ℚ) (s : VState) (p : HPiece) :
    vStatePieces (stepV unit eff_w eff_h col_w edge_trim s p) ~ vStatePieces s ++ [p] := by
  unfold stepV
  cases htry : tryPlaceColV unit eff_h p s.cur.cols with
  | some cols2 =>
    simp only [vStatePieces, vBoardPieces]
    have := tryPlaceColV_perm unit eff_h p s.cur.cols cols2 htry
    exact (this.append_left _).trans (by rw [← List.append_assoc])
  | none =>
    by_cases hover : eff_w < s.cur.used_w + ((if s.cur.cols.isEmpty then 0 else unit) + col_w)
    · rw [if_pos hover]
      simp only [vStatePieces, vBoardPieces, List.flatMap_append, List.flatMap_cons,
        List.flatMap_nil, List.append_nil]
      rw [placeLastColV_pieces p _ (openNewColV_ne_nil unit eff_h col_w edge_trim ⟨[], 0, []⟩)]
      have hopen : colsPieces (openNewColV unit eff_h col_w edge_trim ⟨[], 0, []⟩).cols
          = ([] : List HPiece) := by
        simp [openNewColV, colsPieces]
      rw [hopen]
      simp [List.append_assoc]
    · rw [if_neg hover]
      simp only [vStatePieces, vBoardPieces]
      rw [placeLastColV_pieces p _ (openNewColV_ne_nil unit eff_h col_w edge_trim s.cur)]
      have hopen : colsPieces (openNewColV unit eff_h col_w edge_trim s.cur).cols
          = colsPieces s.cur.cols := openNewColV_pieces unit eff_h col_w edge_trim s.cur
      rw [hopen, ← List.append_assoc]

/-- Folding the vertical main loop appends exactly the processed pieces. -/
theorem foldl_stepV_pieces (unit eff_w eff_h col_w edge_trim : ℚ) (ps : List HPiece) :
    ∀ s : VState,
      vStatePieces (ps.foldl (stepV unit eff_w eff_h col_w edge_trim) s) ~ vStatePieces s ++ ps := by
  induction ps with
  | nil => intro s; simp
  | cons p rest ih =>
    intro s
    simp only [List.foldl_cons]
    refine (ih _).trans ?_
    refine ((stepV_pieces_perm unit eff_w eff_h col_w edge_trim s p).append_right rest).trans ?_
    rw [List.append_assoc, List.singleton_append]

/-- One vertical main-loop iteration adds the piece's area. -/
theorem stepV_used (unit eff_w eff_h col_w edge_trim : ℚ) (s : VState) (p : HPiece) :
    (stepV unit eff_w eff_h col_w edge_trim s p).used = s.used + p.w * p.h := by
  unfold stepV
  cases htry : tryPlaceColV unit eff_h p s.cur.cols with
  | some cols2 => rfl
  | none =>
    by_cases hover : eff_w < s.cur.used_w + ((if s.cur.cols.isEmpty then 0 else unit) + col_w)
    · rw [if_pos hover]
    · rw [if_neg hover]

/-- Folding the vertical main loop accumulates the summed areas. -/
theorem foldl_stepV_used (unit eff_w eff_h col_w edge_trim : ℚ) (ps : List HPiece) :
    ∀ s : VState,
      (ps.foldl (stepV unit eff_w eff_h col_w edge_trim) s).used = s.used + sumAreas ps := by
  induction ps with
  | nil => intro s; simp [sumAreas]
  | cons p rest ih =>
    intro s
    simp only [List.foldl_cons]
    rw [ih, stepV_used]
    simp [sumAreas, add_assoc]

/-- The column rebuild keeps each piece's dimensions, in order. -/
theorem rebuildGoV_dims (kerf extra edge_trim eff_w colX : ℚ) (ps : List HPiece) :
    ∀ (c : ℚ) (ph : Option ℚ),
      ((rebuildGoV kerf extra edge_trim eff_w colX ps c ph).1).map rectDims = ps.map pieceDims := by
  induction ps with
  | nil => intro c ph; rfl
  | cons p rest ih =>
    intro c ph
    simp only [rebuildGoV, List.map_cons]
    exact congrArg (List.cons _) (ih _ _)

/-- Drawn dimensions of one rebuilt vertical board are a permutation of its
stored pieces' dimensions. -/
theorem boardDrawV_dims (kerf extra edge_trim eff_w : ℚ) (b : VBoard) :
    (boardDrawV kerf extra edge_trim eff_w b).map rectDims ~ (vBoardPieces b).map pieceDims := by
  unfold boardDrawV vBoardPieces colsPieces
  rw [List.map_flatMap, List.map_flatMap]
  refine flatMap_perm_congr _ _ _ ?_
  intro col _
  have h1 : ((rebuildColV kerf extra edge_trim eff_w col).1.map (shiftRect edge_trim)).map rectDims
      = (bucketOrder (fun p => p.h) col.pieces).map pieceDims := by
    rw [List.map_map]
    have h2 : rectDims ∘ shiftRect edge_trim = rectDims := funext (fun r => rfl)
    rw [h2]
    exact rebuildGoV_dims kerf extra edge_trim eff_w col.x (bucketOrder (fun p => p.h) col.pieces) 0 none
  rw [h1]
  exact (bucketOrder_perm _ col.pieces).map pieceDims

/-- `pack_vertical`'s `boards_draw`, through the pass-1 board list. -/
theorem pack_vertical_boards_draw (rows : List Row)
    (bw bh eff_w eff_h col_w kerf extra edge_trim : ℚ) (rot : Bool) :
    (pack_vertical rows bw bh eff_w eff_h col_w kerf extra edge_trim rot).boards_draw
      = (packVBoards rows eff_w eff_h col_w kerf extra edge_trim rot).map
          (boardDrawV kerf extra edge_trim eff_w) := rfl

/-- `pack_vertical`'s `used_area`, through the pass-1 state. -/
theorem pack_vertical_used_area (rows : List Row)
    (bw bh eff_w eff_h col_w kerf extra edge_trim : ℚ) (rot : Bool) :
    (pack_vertical rows bw bh eff_w eff_h col_w kerf extra edge_trim rot).used_area
      = (packVState rows eff_w eff_h col_w kerf extra edge_trim rot).used := rfl

/-- The pieces stored across all vertical pass-1 boards are a permutation of
the sorted expansion. -/
theorem packVBoards_pieces_perm (rows : List Row)
    (eff_w eff_h col_w kerf extra edge_trim : ℚ) (rot : Bool) :
    (packVBoards rows eff_w eff_h col_w kerf extra edge_trim rot).flatMap vBoardPieces
      ~ sortByDesc (fun p => p.w * p.h) (expandedFor rows rot col_w) := by
  unfold packVBoards
  have h1 : ((packVState rows eff_w eff_h col_w kerf extra edge_trim rot).closed
        ++ [(packVState rows eff_w eff_h col_w kerf extra edge_trim rot).cur]).flatMap vBoardPieces
      = vStatePieces (packVState rows eff_w eff_h col_w kerf extra edge_trim rot) := by
    simp [vStatePieces, List.flatMap_append]
  rw [h1]
  unfold packVState
  refine (foldl_stepV_pieces (kerf + extra) eff_w eff_h col_w edge_trim _ _).trans ?_
  have h2 : vStatePieces ⟨[], openNewColV (kerf + extra) eff_h col_w edge_trim ⟨[], 0, []⟩, 0⟩
      = ([] : List HPiece) := by
    simp [vStatePieces, vBoardPieces, openNewColV, colsPieces]
  rw [h2, List.nil_append]

/-- Dimensions of everything drawn by `pack_vertical` are a permutation of the
expansion's dimensions. -/
theorem packV_flat_dims (rows : List Row)
    (bw bh eff_w eff_h col_w kerf extra edge_trim : ℚ) (rot : Bool) :
    ((pack_vertical rows bw bh eff_w eff_h col_w kerf extra edge_trim rot).boards_draw.flatten).map rectDims
      ~ (expandedFor rows rot col_w).map pieceDims := by
  rw [pack_vertical_boards_draw]
  rw [← List.flatMap_def, List.map_flatMap]
  refine List.Perm.trans (flatMap_perm_congr _ _
    (fun b => (vBoardPieces b).map pieceDims)
    (fun b _ => boardDrawV_dims kerf extra edge_trim eff_w b)) ?_
  rw [← List.map_flatMap]
  exact ((packVBoards_pieces_perm rows eff_w eff_h col_w kerf extra edge_trim rot).trans
    (sortByDesc_perm _ _)).map pieceDims

/-- Conservation for `pack_vertical`. -/
theorem packV_conservation (rows : List Row)
    (bw bh eff_w eff_h col_w kerf extra edge_trim : ℚ) (rot : Bool) :
    totalPlaced (pack_vertical rows bw bh eff_w eff_h col_w kerf extra edge_trim rot)
      = totalQty rows := by
  rw [totalPlaced_eq_flatten]
  have h1 := (packV_flat_dims rows bw bh eff_w eff_h col_w kerf extra edge_trim rot).length_eq
  rw [List.length_map, List.length_map] at h1
  rw [h1, expandedFor_length]

/-- `used_area` of `pack_vertical` equals the summed drawn area. -/
theorem packV_used_eq (rows : List Row)
    (bw bh eff_w eff_h col_w kerf extra edge_trim : ℚ) (rot : Bool) :
    (pack_vertical rows bw bh eff_w eff_h col_w kerf extra edge_trim rot).used_area
      = sumRectAreas
          (pack_vertical rows bw bh eff_w eff_h col_w kerf extra edge_trim rot).boards_draw := by
  rw [pack_vertical_used_area, sumRectAreas_eq_flatten]
  unfold packVState
  rw [foldl_stepV_used]
  have h0 : (⟨[], openNewColV (kerf + extra) eff_h col_w edge_trim ⟨[], 0, []⟩, 0⟩ : VState).used
      = 0 := rfl
  rw [h0, zero_add]
  have hperm := packV_flat_dims rows bw bh eff_w eff_h col_w kerf extra edge_trim rot
  have h2 : (((pack_vertical rows bw bh eff_w eff_h col_w kerf extra edge_trim
        rot).boards_draw.flatten.map rectDims).map (fun d => d.1 * d.2)).sum
      = (((expandedFor rows rot col_w).map pieceDims).map (fun d => d.1 * d.2)).sum :=
    perm_map_sum _ _ _ hperm
  rw [List.map_map, List.map_map] at h2
  have h3 : ((fun d : ℚ × ℚ => d.1 * d.2) ∘ rectDims) = fun r : Rect => r.w * r.h :=
    funext (fun r => rfl)
  have h4 : ((fun d : ℚ × ℚ => d.1 * d.2) ∘ pieceDims) = fun p : HPiece => p.w * p.h :=
    funext (fun p => rfl)
  rw [h3, h4] at h2
  rw [h2]
  have h5 := ((sortByDesc_perm (fun p : HPiece => p.w * p.h)
      (expandedFor rows rot col_w)).map (fun p : HPiece => p.w * p.h)).sum_eq
  unfold sumAreas
  exact h5

/-- C1: for every run of either packer (which cannot fail), the total number
of drawn pieces across all boards equals the total demanded quantity: every
demanded unit is placed exactly once. -/
theorem c1_conservation (rows : List Row)
    (bw bh eff_w eff_h param kerf extra edge_trim : ℚ) (rot : Bool) :
    totalPlaced (pack_horizontal rows bw bh eff_w eff_h param kerf extra edge_trim rot)
        = totalQty rows
    ∧ totalPlaced (pack_vertical rows bw bh eff_w eff_h param kerf extra edge_trim rot)
        = totalQty rows :=
  ⟨packH_conservation rows bw bh eff_w eff_h param kerf extra edge_trim rot,
    packV_conservation rows bw bh eff_w eff_h param kerf extra edge_trim rot⟩

/-- Every candidate record built by the explorer conserves the demand, sums
its drawn areas into `used`, and computes `waste` by the explorer's formula. -/
theorem mem_allCandidates_spec (rows : List Row) (BW BH eff_w eff_h kerf extra edge : ℚ)
    (rot : Bool) (max_k : ℕ) (tol : ℚ) (c : Cand)
    (hc : c ∈ allCandidates rows BW BH eff_w eff_h kerf extra edge rot max_k tol) :
    candPlaced c = totalQty rows
    ∧ c.used = sumRectAreas c.boards_draw
    ∧ c.waste = eff_w * eff_h * (c.boards : ℚ) - c.used := by
  unfold allCandidates at hc
  rcases List.mem_append.mp hc with h | h
  · rcases List.mem_map.mp h with ⟨shp, _, rfl⟩
    exact ⟨packH_conservation rows BW BH eff_w eff_h shp kerf extra edge rot,
      packH_used_eq rows BW BH eff_w eff_h shp kerf extra edge rot, rfl⟩
  · rcases List.mem_map.mp h with ⟨cw, _, rfl⟩
    exact ⟨packV_conservation rows BW BH eff_w eff_h cw kerf extra edge rot,
      packV_used_eq rows BW BH eff_w eff_h cw kerf extra edge rot, rfl⟩

/-- C8: for every candidate layout the metrics are exactly
`waste = eff_w * eff_h * sheet_count - used_area` with `used_area` the summed
area of all placed pieces, and
`yield_ratio = used_area / (eff_w * eff_h * sheet_count)`. -/
theorem c8_metrics (rows : List Row) (BW BH eff_w eff_h kerf extra edge : ℚ)
    (rot : Bool) (max_k : ℕ) (tol : ℚ) (c : Cand)
    (hc : c ∈ allCandidates rows BW BH eff_w eff_h kerf extra edge rot max_k tol) :
    c.waste = eff_w * eff_h * (c.boards : ℚ) - c.used
    ∧ c.used = sumRectAreas c.boards_draw
    ∧ yieldRate c eff_w eff_h = c.used / (eff_w * eff_h * (c.boards : ℚ)) :=
  ⟨(mem_allCandidates_spec rows BW BH eff_w eff_h kerf extra edge rot max_k tol c hc).2.2,
    (mem_allCandidates_spec rows BW BH eff_w eff_h kerf extra edge rot max_k tol c hc).2.1,
    rfl⟩

/-- C8 witness: the horizontal candidate for shelf height 10 of the demand
`(10, 10) × 1` on a 100×100 sheet with no kerf and no margin satisfies the
metric equations. -/
theorem c8_witness :
    candH [⟨10, 10, 1⟩] 100 100 100 100 0 0 0 false 10
        ∈ allCandidates [⟨10, 10, 1⟩] 100 100 100 100 0 0 0 false 8 2
    ∧ ((candH [⟨10, 10, 1⟩] 100 100 100 100 0 0 0 false 10).waste
        = 100 * 100 * (((candH [⟨10, 10, 1⟩] 100 100 100 100 0 0 0 false 10).boards : ℕ) : ℚ)
          - (candH [⟨10, 10, 1⟩] 100 100 100 100 0 0 0 false 10).used
      ∧ (candH [⟨10, 10, 1⟩] 100 100 100 100 0 0 0 false 10).used
        = sumRectAreas (candH [⟨10, 10, 1⟩] 100 100 100 100 0 0 0 false 10).boards_draw
      ∧ yieldRate (candH [⟨10, 10, 1⟩] 100 100 100 100 0 0 0 false 10) 100 100
        = (candH [⟨10, 10, 1⟩] 100 100 100 100 0 0 0 false 10).used
          / (100 * 100 * (((candH [⟨10, 10, 1⟩] 100 100 100 100 0 0 0 false 10).boards : ℕ) : ℚ))) := by
  have hmem : candH [⟨10, 10, 1⟩] 100 100 100 100 0 0 0 false 10
      ∈ allCandidates [⟨10, 10, 1⟩] 100 100 100 100 0 0 0 false 8 2 := by
    unfold allCandidates
    refine List.mem_append_left _ ?_
    refine List.mem_map.mpr ⟨10, ?_, rfl⟩
    with_unfolding_all decide
  exact ⟨hmem, c8_metrics [⟨10, 10, 1⟩] 100 100 100 100 0 0 0 false 8 2 _ hmem⟩

/-- `lexLe` is reflexive. -/
theorem lexLe_refl (a : ℕ × ℚ) : lexLe a a := Or.inr ⟨rfl, le_refl _⟩

/-- `lexLt` implies `lexLe`. -/
theorem lexLt_le (a b : ℕ × ℚ) (h : lexLt a b) : lexLe a b := by
  rcases h with h | ⟨h1, h2⟩
  · exact Or.inl h
  · exact Or.inr ⟨h1, le_of_lt h2⟩

/-- `lexLe` is transitive. -/
theorem lexLe_trans (a b c : ℕ × ℚ) (hab : lexLe a b) (hbc : lexLe b c) : lexLe a c := by
  rcases hab with h1 | ⟨h1, h2⟩ <;> rcases hbc with h3 | ⟨h3, h4⟩
  · exact Or.inl (lt_trans h1 h3)
  · exact Or.inl (h3 ▸ h1)
  · exact Or.inl (h1 ▸ h3)
  · exact Or.inr ⟨h1.trans h3, le_trans h2 h4⟩

/-- Totality: a failed strict comparison gives the reversed weak one. -/
theorem lexLe_of_not_lt (a b : ℕ × ℚ) (h : ¬ lexLt a b) : lexLe b a := by
  rcases Nat.lt_trichotomy a.1 b.1 with h1 | h1 | h1
  · exact absurd (Or.inl h1) h
  · by_cases h2 : a.2 < b.2
    · exact absurd (Or.inr ⟨h1, h2⟩) h
    · exact Or.inr ⟨h1.symm, le_of_not_lt h2⟩
  · exact Or.inl h1

/-- `pickMin` returns its start or a member, with a key below everything seen. -/
theorem pickMin_spec (key : Cand → ℕ × ℚ) (l : List Cand) :
    ∀ b : Cand,
      (pickMin key b l = b ∨ pickMin key b l ∈ l)
      ∧ lexLe (key (pickMin key b l)) (key b)
      ∧ ∀ y ∈ l, lexLe (key (pickMin key b l)) (key y) := by
  induction l with
  | nil =>
    intro b
    exact ⟨Or.inl rfl, lexLe_refl _, fun y hy => absurd hy (List.not_mem_nil y)⟩
  | cons x xs ih =>
    intro b
    have hstep : pickMin key b (x :: xs)
        = pickMin key (if lexLt (key x) (key b) then x else b) xs := rfl
    by_cases hlt : lexLt (key x) (key b)
    · rw [hstep, if_pos hlt]
      rcases ih x with ⟨hm, hle, hall⟩
      refine ⟨?_, ?_, ?_⟩
      · rcases hm with h | h
        · exact Or.inr (by rw [h]; exact List.mem_cons_self x xs)
        · exact Or.inr (List.mem_cons_of_mem x h)
      · exact lexLe_trans _ _ _ hle (lexLt_le _ _ hlt)
      · intro y hy
        rcases List.mem_cons.mp hy with rfl | hy
        · exact hle
        · exact hall y hy
    · rw [hstep, if_neg hlt]
      rcases ih b with ⟨hm, hle, hall⟩
      refine ⟨?_, hle, ?_⟩
      · rcases hm with h | h
        · exact Or.inl h
        · exact Or.inr (List.mem_cons_of_mem x h)
      · intro y hy
        rcases List.mem_cons.mp hy with rfl | hy
        · exact lexLe_trans _ _ _ hle (lexLe_of_not_lt _ _ hlt)
        · exact hall y hy

/-- `selectBest` returns a member whose key is lexicographically minimal. -/
theorem selectBest_spec (key : Cand → ℕ × ℚ) (l : List Cand) (c : Cand)
    (h : selectBest key l = some c) :
    c ∈ l ∧ ∀ y ∈ l, lexLe (key c) (key y) := by
  cases l with
  | nil => exact absurd h (by simp [selectBest])
  | cons a rest =>
    have hc : c = pickMin key a rest := (Option.some.inj h).symm
    rcases pickMin_spec key rest a with ⟨hm, hle, hall⟩
    subst hc
    refine ⟨?_, ?_⟩
    · rcases hm with h1 | h1
      · exact (by rw [h1]; exact List.mem_cons_self a rest)
      · exact List.mem_cons_of_mem a h1
    · intro y hy
      rcases List.mem_cons.mp hy with rfl | hy
      · exact hle
      · exact hall y hy

/-- `selectBest` succeeds on a nonempty list. -/
theorem selectBest_is_some (key : Cand → ℕ × ℚ) (l : List Cand) (h : l ≠ []) :
    ∃ c, selectBest key l = some c := by
  cases l with
  | nil => exact absurd rfl h
  | cons a rest => exact ⟨pickMin key a rest, rfl⟩

/-- C9: whenever the explorer returns, the yield-objective result is a member
of the evaluated candidate set minimizing `(boards, waste)` lexicographically,
and the cuts-objective result is a member of the same candidate set minimizing
`(cuts, boards)` lexicographically. -/
theorem c9_selection (rows : List Row) (BW BH kerf extra edge tol : ℚ) (rot : Bool)
    (max_k : ℕ) (r : Cand × Cand × ℚ × ℚ)
    (h : explore_and_choose rows BW BH kerf extra edge rot max_k tol = some r) :
    (r.1 ∈ allCandidates rows BW BH (BW - 2 * edge) (BH - 2 * edge) kerf extra edge rot max_k tol
      ∧ ∀ c ∈ allCandidates rows BW BH (BW - 2 * edge) (BH - 2 * edge) kerf extra edge rot max_k tol,
          lexLe (keyYield r.1) (keyYield c))
    ∧ (r.2.1 ∈ allCandidates rows BW BH (BW - 2 * edge) (BH - 2 * edge) kerf extra edge rot max_k tol
      ∧ ∀ c ∈ allCandidates rows BW BH (BW - 2 * edge) (BH - 2 * edge) kerf extra edge rot max_k tol,
          lexLe (keyCuts r.2.1) (keyCuts c)) := by
  unfold explore_and_choose at h
  by_cases hcond : BW - 2 * edge ≤ 0 ∨ BH - 2 * edge ≤ 0
  · rw [if_pos hcond] at h
    cases h
  · rw [if_neg hcond] at h
    cases hY : selectBest keyYield
        (allCandidates rows BW BH (BW - 2 * edge) (BH - 2 * edge) kerf extra edge rot max_k tol) with
    | none => rw [hY] at h; cases h
    | some bY =>
      cases hC : selectBest keyCuts
          (allCandidates rows BW BH (BW - 2 * edge) (BH - 2 * edge) kerf extra edge rot max_k tol) with
      | none => rw [hY, hC] at h; cases h
      | some bC =>
        rw [hY, hC] at h
        have hr : r = (bY, bC, BW - 2 * edge, BH - 2 * edge) := (Option.some.inj h).symm
        subst hr
        exact ⟨selectBest_spec keyYield _ bY hY, selectBest_spec keyCuts _ bC hC⟩

/-- C9 witness: the demand `(10, 10) × 1` on a 100×100 sheet (no kerf, no
margin) makes the explorer return, and both returned layouts are minimal
members of the candidate set. -/
theorem c9_witness :
    (explore_and_choose [⟨10, 10, 1⟩] 100 100 0 0 0 false 8 2).elim False (fun r =>
      (r.1 ∈ allCandidates [⟨10, 10, 1⟩] 100 100 (100 - 2 * 0) (100 - 2 * 0) 0 0 0 false 8 2
        ∧ ∀ c ∈ allCandidates [⟨10, 10, 1⟩] 100 100 (100 - 2 * 0) (100 - 2 * 0) 0 0 0 false 8 2,
            lexLe (keyYield r.1) (keyYield c))
      ∧ (r.2.1 ∈ allCandidates [⟨10, 10, 1⟩] 100 100 (100 - 2 * 0) (100 - 2 * 0) 0 0 0 false 8 2
        ∧ ∀ c ∈ allCandidates [⟨10, 10, 1⟩] 100 100 (100 - 2 * 0) (100 - 2 * 0) 0 0 0 false 8 2,
            lexLe (keyCuts r.2.1) (keyCuts c))) := by
  have hsome : (explore_and_choose [⟨10, 10, 1⟩] 100 100 0 0 0 false 8 2).isSome = true := by
    with_unfolding_all decide
  cases hE : explore_and_choose [⟨10, 10, 1⟩] 100 100 0 0 0 false 8 2 with
  | none => rw [hE] at hsome; simp at hsome
  | some r =>
    exact c9_selection [⟨10, 10, 1⟩] 100 100 0 0 0 2 false 8 r hE

/-- `insDedupAsc` never produces the empty list. -/
theorem insDedupAsc_ne_nil (x : ℚ) (l : List ℚ) : insDedupAsc x l ≠ [] := by
  cases l with
  | nil => simp [insDedupAsc]
  | cons y ys =>
    unfold insDedupAsc
    by_cases h1 : x < y
    · simp [h1]
    · by_cases h2 : x = y <;> simp [h1, h2]

/-- Members of `insDedupAsc x l` are `x` or members of `l`. -/
theorem insDedupAsc_mem (x : ℚ) (l : List ℚ) :
    ∀ y ∈ insDedupAsc x l, y = x ∨ y ∈ l := by
  induction l with
  | nil => intro y hy; simp [insDedupAsc] at hy; exact Or.inl hy
  | cons z zs ih =>
    intro y hy
    unfold insDedupAsc at hy
    by_cases h1 : x < z
    · rw [if_pos h1] at hy
      rcases List.mem_cons.mp hy with rfl | hy
      · exact Or.inl rfl
      · exact Or.inr hy
    · rw [if_neg h1] at hy
      by_cases h2 : x = z
      · rw [if_pos h2] at hy
        exact Or.inr hy
      · rw [if_neg h2] at hy
        rcases List.mem_cons.mp hy with rfl | hy
        · exact Or.inr (List.mem_cons_self _ _)
        · rcases ih y hy with h | h
          · exact Or.inl h
          · exact Or.inr (List.mem_cons_of_mem z h)

/-- `insDedupAsc` preserves strictly increasing order. -/
theorem insDedupAsc_sorted (x : ℚ) (l : List ℚ) (h : l.Pairwise (· < ·)) :
    (insDedupAsc x l).Pairwise (· < ·) := by
  induction l with
  | nil => simp [insDedupAsc]
  | cons z zs ih =>
    rcases List.pairwise_cons.mp h with ⟨hz, hzs⟩
    unfold insDedupAsc
    by_cases h1 : x < z
    · rw [if_pos h1]
      refine List.pairwise_cons.mpr ⟨?_, h⟩
      intro y hy
      rcases List.mem_cons.mp hy with rfl | hy
      · exact h1
      · exact lt_trans h1 (hz y hy)
    · rw [if_neg h1]
      by_cases h2 : x = z
      · rw [if_pos h2]; exact h
      · rw [if_neg h2]
        have hzx : z < x := lt_of_le_of_ne (le_of_not_lt h1) (fun he => h2 he.symm)
        refine List.pairwise_cons.mpr ⟨?_, ih hzs⟩
        intro y hy
        rcases insDedupAsc_mem x zs y hy with rfl | hy
        · exact hzx
        · exact hz y hy

/-- The fold underlying `sortedDedupAsc` keeps the accumulator strictly
increasing. -/
theorem foldl_insDedup_sorted (l : List ℚ) :
    ∀ acc : List ℚ, acc.Pairwise (· < ·) →
      (l.foldl (fun a x => insDedupAsc x a) acc).Pairwise (· < ·) := by
  induction l with
  | nil => intro acc h; exact h
  | cons x xs ih => intro acc h; exact ih _ (insDedupAsc_sorted x acc h)

/-- Members after the `sortedDedupAsc` fold come from the accumulator or the
input. -/
theorem foldl_insDedup_mem (l : List ℚ) :
    ∀ acc : List ℚ, ∀ y ∈ l.foldl (fun a x => insDedupAsc x a) acc, y ∈ acc ∨ y ∈ l := by
  induction l with
  | nil => intro acc y hy; exact Or.inl hy
  | cons x xs ih =>
    intro acc y hy
    rcases ih (insDedupAsc x acc) y hy with h | h
    · rcases insDedupAsc_mem x acc y h with rfl | h
      · exact Or.inr (List.mem_cons_self _ _)
      · exact Or.inl h
    · exact Or.inr (List.mem_cons_of_mem x h)

/-- The `sortedDedupAsc` fold keeps a nonempty accumulator nonempty. -/
theorem foldl_insDedup_ne_nil (l : List ℚ) :
    ∀ acc : List ℚ, acc ≠ [] ∨ l ≠ [] →
      l.foldl (fun a x => insDedupAsc x a) acc ≠ [] := by
  induction l with
  | nil =>
    intro acc h
    rcases h with h | h
    · exact h
    · exact absurd rfl h
  | cons x xs ih =>
    intro acc _
    exact ih (insDedupAsc x acc) (Or.inl (insDedupAsc_ne_nil x acc))

/-- `sortedDedupAsc` is strictly increasing. -/
theorem sortedDedupAsc_sorted (l : List ℚ) : (sortedDedupAsc l).Pairwise (· < ·) :=
  foldl_insDedup_sorted l [] List.Pairwise.nil

/-- Members of `sortedDedupAsc` come from the input. -/
theorem sortedDedupAsc_mem (l : List ℚ) : ∀ y ∈ sortedDedupAsc l, y ∈ l := by
  intro y hy
  rcases foldl_insDedup_mem l [] y hy with h | h
  · exact absurd h (List.not_mem_nil y)
  · exact h

/-- `sortedDedupAsc` of a nonempty list is nonempty. -/
theorem sortedDedupAsc_ne_nil (l : List ℚ) (h : l ≠ []) : sortedDedupAsc l ≠ [] :=
  foldl_insDedup_ne_nil l [] (Or.inr h)

/-- The merge fold of `candidate_heights`: sorted input gives a sorted,
member-preserving, nonempty-preserving result. -/
theorem mergeFold_spec (tol : ℚ) (rest : List ℚ) :
    ∀ m : List ℚ, (m ++ rest).Pairwise (· < ·) →
      ((rest.foldl (fun m v => if m.isEmpty ∨ tol < |m.getLastD 0 - v| then m ++ [v] else m)
          m).Pairwise (· < ·))
      ∧ (∀ y ∈ rest.foldl (fun m v => if m.isEmpty ∨ tol < |m.getLastD 0 - v| then m ++ [v] else m) m,
          y ∈ m ∨ y ∈ rest)
      ∧ (m ≠ [] ∨ rest ≠ [] →
          rest.foldl (fun m v => if m.isEmpty ∨ tol < |m.getLastD 0 - v| then m ++ [v] else m) m ≠ []) := by
  induction rest with
  | nil =>
    intro m h
    rw [List.append_nil] at h
    refine ⟨h, fun y hy => Or.inl hy, ?_⟩
    intro hne
    rcases hne with h1 | h1
    · exact h1
    · exact absurd rfl h1
  | cons v rest2 ih =>
    intro m h
    simp only [List.foldl_cons]
    by_cases hc : m.isEmpty = true ∨ tol < |m.getLastD 0 - v|
    · rw [if_pos hc]
      have hsorted : ((m ++ [v]) ++ rest2).Pairwise (· < ·) := by
        rw [List.append_assoc, List.singleton_append]
        exact h
      rcases ih (m ++ [v]) hsorted with ⟨h1, h2, h3⟩
      refine ⟨h1, ?_, ?_⟩
      · intro y hy
        rcases h2 y hy with hm | hr
        · rcases List.mem_append.mp hm with hm | hm
          · exact Or.inl hm
          · exact Or.inr (by rw [List.mem_singleton.mp hm]; exact List.mem_cons_self v rest2)
        · exact Or.inr (List.mem_cons_of_mem v hr)
      · intro _
        exact h3 (Or.inl (by simp))
    · rw [if_neg hc]
      have hsub : m ++ rest2 <+ m ++ v :: rest2 :=
        List.Sublist.append_left (List.sublist_cons_self v rest2) m
      rcases ih m (h.sublist hsub) with ⟨h1, h2, h3⟩
      refine ⟨h1, ?_, ?_⟩
      · intro y hy
        rcases h2 y hy with hm | hr
        · exact Or.inl hm
        · exact Or.inr (List.mem_cons_of_mem v hr)
      · intro _
        have hm : m ≠ [] := by
          intro hnil
          exact hc (Or.inl (by simp [hnil]))
        exact h3 (Or.inl hm)

/-- `candMerged` is strictly increasing, draws its members from `candVals`,
and is nonempty whenever `candVals` is. -/
theorem candMerged_spec (rows : List Row) (rot : Bool) (tol : ℚ) :
    (candMerged rows rot tol).Pairwise (· < ·)
    ∧ (∀ y ∈ candMerged rows rot tol, y ∈ candVals rows rot)
    ∧ (candVals rows rot ≠ [] → candMerged rows rot tol ≠ []) := by
  have h := mergeFold_spec tol (sortedDedupAsc (candVals rows rot)) [] (by
    rw [List.nil_append]
    exact sortedDedupAsc_sorted _)
  rcases h with ⟨h1, h2, h3⟩
  refine ⟨h1, ?_, ?_⟩
  · intro y hy
    rcases h2 y hy with hm | hr
    · exact absurd hm (List.not_mem_nil y)
    · exact sortedDedupAsc_mem _ y hr
  · intro hvals
    exact h3 (Or.inr (sortedDedupAsc_ne_nil _ hvals))

/-- C10: for a nonempty demand and `max_k ≥ 1`, `candidate_heights` returns a
nonempty list of at most `max_k` values, strictly decreasing, each value being
some row's height or (when rotation is allowed) some row's width. -/
theorem c10_candidate_heights (rows : List Row) (rot : Bool) (max_k : ℕ) (tol : ℚ)
    (hrows : rows ≠ []) (hk : 1 ≤ max_k) :
    candidate_heights rows rot max_k tol ≠ []
    ∧ (candidate_heights rows rot max_k tol).length ≤ max_k
    ∧ (candidate_heights rows rot max_k tol).Pairwise (fun a b => b < a)
    ∧ ∀ v ∈ candidate_heights rows rot max_k tol,
        (∃ r ∈ rows, v = r.h) ∨ (rot = true ∧ ∃ r ∈ rows, v = r.w) := by
  have hvals : candVals rows rot ≠ [] := by
    cases rows with
    | nil => exact absurd rfl hrows
    | cons r rest =>
      unfold candVals
      rw [List.flatMap_cons]
      cases rot <;> simp
  rcases candMerged_spec rows rot tol with ⟨hsorted, hmem, hne⟩
  have hmerged : candMerged rows rot tol ≠ [] := hne hvals
  have hperm := sortByDesc_perm id (candMerged rows rot tol)
  have hsortne : sortByDesc id (candMerged rows rot tol) ≠ [] := by
    intro hnil
    exact hmerged (List.eq_nil_of_length_eq_zero (by
      rw [← hperm.length_eq, hnil]
      rfl))
  have htake_ne : (sortByDesc id (candMerged rows rot tol)).take max_k ≠ [] := by
    cases hs : sortByDesc id (candMerged rows rot tol) with
    | nil => exact absurd hs hsortne
    | cons a l =>
      cases max_k with
      | zero => exact absurd hk (by simp)
      | succ k => simp [List.take_succ_cons]
  have hres : candidate_heights rows rot max_k tol
      = (sortByDesc id (candMerged rows rot tol)).take max_k := by
    unfold candidate_heights
    rw [if_neg (by simpa [List.isEmpty_iff] using htake_ne)]
  have hdesc : (sortByDesc id (candMerged rows rot tol)).Pairwise (fun a b => b < a) := by
    have hge := sortByDesc_sorted id (candMerged rows rot tol)
    have hnd : (sortByDesc id (candMerged rows rot tol)).Nodup :=
      hperm.nodup_iff.mpr (hsorted.imp (fun hlt => ne_of_lt hlt))
    have := List.Pairwise.and hge hnd
    exact this.imp (fun hab => lt_of_le_of_ne hab.1 (fun he => hab.2 he.symm))
  refine ⟨?_, ?_, ?_, ?_⟩
  · rw [hres]; exact htake_ne
  · rw [hres, List.length_take]; exact min_le_left _ _
  · rw [hres]; exact hdesc.sublist (List.take_sublist _ _)
  · intro v hv
    rw [hres] at hv
    have hvm : v ∈ candMerged rows rot tol :=
      hperm.mem_iff.mp (List.take_subset _ _ hv)
    have hvv : v ∈ candVals rows rot := hmem v hvm
    rcases List.mem_flatMap.mp hvv with ⟨r, hr, hvr⟩
    cases rot with
    | false =>
      rw [if_neg (by simp)] at hvr
      exact Or.inl ⟨r, hr, (List.mem_singleton.mp hvr)⟩
    | true =>
      rw [if_pos rfl] at hvr
      rcases List.mem_cons.mp hvr with rfl | hvr
      · exact Or.inl ⟨r, hr, rfl⟩
      · exact Or.inr ⟨rfl, r, hr, List.mem_singleton.mp hvr⟩

/-- C10 witness: one row `(3, 5) × 1` with rotation and `max_k = 2`. -/
theorem c10_witness :
    ([⟨3, 5, 1⟩] : List Row) ≠ [] ∧ 1 ≤ 2
    ∧ (candidate_heights [⟨3, 5, 1⟩] true 2 2 ≠ []
      ∧ (candidate_heights [⟨3, 5, 1⟩] true 2 2).length ≤ 2
      ∧ (candidate_heights [⟨3, 5, 1⟩] true 2 2).Pairwise (fun a b => b < a)
      ∧ ∀ v ∈ candidate_heights [⟨3, 5, 1⟩] true 2 2,
          (∃ r ∈ ([⟨3, 5, 1⟩] : List Row), v = r.h)
          ∨ (true = true ∧ ∃ r ∈ ([⟨3, 5, 1⟩] : List Row), v = r.w)) :=
  ⟨by simp, by norm_num,
    c10_candidate_heights [⟨3, 5, 1⟩] true 2 2 (by simp) (by norm_num)⟩

/-- `candidate_heights` never returns the empty list (there is a fallback). -/
theorem candidate_heights_ne_nil (rows : List Row) (rot : Bool) (max_k : ℕ) (tol : ℚ) :
    candidate_heights rows rot max_k tol ≠ [] := by
  unfold candidate_heights
  by_cases h : ((sortByDesc id (candMerged rows rot tol)).take max_k).isEmpty = true
  · rw [if_pos h]; simp
  · rw [if_neg h]
    intro hnil
    exact h (by rw [hnil]; rfl)

/-- The explorer always has at least two candidates to choose from. -/
theorem allCandidates_ne_nil (rows : List Row) (BW BH eff_w eff_h kerf extra edge : ℚ)
    (rot : Bool) (max_k : ℕ) (tol : ℚ) :
    allCandidates rows BW BH eff_w eff_h kerf extra edge rot max_k tol ≠ [] := by
  unfold allCandidates
  intro h
  rcases List.append_eq_nil.mp h with ⟨h1, _⟩
  exact candidate_heights_ne_nil rows rot max_k tol (List.map_eq_nil_iff.mp h1)

/-- C3 amended: the code has no `PieceTooLarge` failure at all.  Whenever the
effective interior is positive, `explore_and_choose` returns a pair of
layouts, and each places every demanded unit (oversized pieces are simply
force-placed, overflowing the interior). -/
theorem c3_amended (rows : List Row) (BW BH kerf extra edge tol : ℚ) (rot : Bool)
    (max_k : ℕ) (hw : 0 < BW - 2 * edge) (hh : 0 < BH - 2 * edge) :
    ∃ r : Cand × Cand × ℚ × ℚ,
      explore_and_choose rows BW BH kerf extra edge rot max_k tol = some r
      ∧ candPlaced r.1 = totalQty rows
      ∧ candPlaced r.2.1 = totalQty rows := by
  have hcond : ¬ (BW - 2 * edge ≤ 0 ∨ BH - 2 * edge ≤ 0) := by
    push_neg
    exact ⟨hw, hh⟩
  obtain ⟨cY, hY⟩ := selectBest_is_some keyYield _
    (allCandidates_ne_nil rows BW BH (BW - 2 * edge) (BH - 2 * edge) kerf extra edge rot max_k tol)
  obtain ⟨cC, hC⟩ := selectBest_is_some keyCuts _
    (allCandidates_ne_nil rows BW BH (BW - 2 * edge) (BH - 2 * edge) kerf extra edge rot max_k tol)
  refine ⟨(cY, cC, BW - 2 * edge, BH - 2 * edge), ?_, ?_, ?_⟩
  · unfold explore_and_choose
    rw [if_neg hcond, hY, hC]
  · exact (mem_allCandidates_spec rows BW BH (BW - 2 * edge) (BH - 2 * edge) kerf extra edge rot
      max_k tol cY (selectBest_spec keyYield _ cY hY).1).1
  · exact (mem_allCandidates_spec rows BW BH (BW - 2 * edge) (BH - 2 * edge) kerf extra edge rot
      max_k tol cC (selectBest_spec keyCuts _ cC hC).1).1

/-- C3 witness: the Scenario-B configuration satisfies the amended claim's
hypotheses, and the explorer returns layouts placing both demanded pieces. -/
theorem c3_witness :
    (0 : ℚ) < 1820 - 2 * 10 ∧ (0 : ℚ) < 910 - 2 * 10
    ∧ ∃ r : Cand × Cand × ℚ × ℚ,
        explore_and_choose [⟨1800, 900, 2⟩] 1820 910 3 0 10 true 8 2 = some r
        ∧ candPlaced r.1 = totalQty [⟨1800, 900, 2⟩]
        ∧ candPlaced r.2.1 = totalQty [⟨1800, 900, 2⟩] :=
  ⟨by norm_num, by norm_num,
    c3_amended [⟨1800, 900, 2⟩] 1820 910 3 0 10 2 true 8 (by norm_num) (by norm_num)⟩

/-- The piece ids emitted by the expansion are consecutive from `idx`. -/
theorem expandGo_pids (rot : Bool) (fixed : ℚ) :
    ∀ (bund : List (ℚ × ℚ × ℕ)) (idx : ℕ),
      (expandGo rot fixed bund idx).map HPiece.pid
        = List.range' idx ((bund.map (fun t => t.2.2)).sum) := by
  intro bund
  induction bund with
  | nil => intro idx; rfl
  | cons t rest ih =>
    intro idx
    rcases t with ⟨w, h, n⟩
    simp only [expandGo, List.map_append, List.map_map, List.map_cons, List.sum_cons]
    have hcomp : (HPiece.pid ∘ fun j => HPiece.mk (orientFor rot fixed w h).1
        (orientFor rot fixed w h).2.1 (orientFor rot fixed w h).2.2 (idx + j))
        = fun j => idx + j := funext (fun j => rfl)
    rw [hcomp, ih]
    have hmr : (List.range n).map (fun j => idx + j) = List.range' idx n := by
      rw [List.range'_eq_map_range]
    rw [hmr]
    have hn : idx + n = idx + 1 * n := by omega
    rw [hn, List.range'_append]
    congr 1
    omega

/-- C5 amended, id part: the ids of the expansion are `0, 1, 2, ...`. -/
theorem expandedFor_pids (rows : List Row) (rot : Bool) (fixed : ℚ) :
    (expandedFor rows rot fixed).map HPiece.pid = List.range (totalQty rows) := by
  unfold expandedFor
  rw [expandGo_pids, demand_bundled_qty, List.range_eq_range']

/-- The orientation step keeps or swaps the bundle's dimensions. -/
theorem orientFor_dims (rot : Bool) (fixed w h : ℚ) :
    ((orientFor rot fixed w h).1 = w ∧ (orientFor rot fixed w h).2.1 = h)
    ∨ ((orientFor rot fixed w h).1 = h ∧ (orientFor rot fixed w h).2.1 = w) := by
  unfold orientFor
  by_cases hc : rot = true ∧ min w h ≤ fixed ∧ fixed < max w h
  · rw [if_pos hc]
    rcases le_total w h with hwh | hwh
    · exact Or.inl ⟨min_eq_left hwh, max_eq_right hwh⟩
    · exact Or.inr ⟨min_eq_right hwh, max_eq_left hwh⟩
  · rw [if_neg hc]
    exact Or.inl ⟨rfl, rfl⟩

/-- `normalize_dim` keeps or swaps the row's dimensions. -/
theorem normalize_dim_cases (w h : ℚ) (rot : Bool) :
    normalize_dim w h rot = (w, h) ∨ normalize_dim w h rot = (h, w) := by
  unfold normalize_dim
  cases rot with
  | false => exact Or.inl (by rw [if_neg (by simp)])
  | true =>
    rw [if_pos rfl]
    rcases le_total w h with hwh | hwh
    · exact Or.inl (by rw [min_eq_left hwh, max_eq_right hwh])
    · exact Or.inr (by rw [min_eq_right hwh, max_eq_left hwh])

/-- The key of every entry after `bundleAdd` is the inserted key or one of the
accumulator's keys. -/
theorem bundleAdd_keys (key : ℚ × ℚ) (n : ℕ) :
    ∀ acc : List ((ℚ × ℚ) × ℕ), ∀ kc ∈ bundleAdd acc key n,
      kc.1 = key ∨ kc.1 ∈ acc.map Prod.fst := by
  intro acc
  induction acc with
  | nil =>
    intro kc hkc
    rcases List.mem_singleton.mp hkc with rfl
    exact Or.inl rfl
  | cons kc0 rest ih =>
    intro kc hkc
    rcases kc0 with ⟨k, c⟩
    unfold bundleAdd at hkc
    by_cases hk : k = key
    · rw [if_pos hk] at hkc
      rcases List.mem_cons.mp hkc with rfl | hkc
      · exact Or.inl hk
      · exact Or.inr (List.mem_cons_of_mem _ (List.mem_map_of_mem Prod.fst hkc))
    · rw [if_neg hk] at hkc
      rcases List.mem_cons.mp hkc with rfl | hkc
      · exact Or.inr (by simp)
      · rcases ih kc hkc with h | h
        · exact Or.inl h
        · exact Or.inr (List.mem_cons_of_mem _ h)

/-- Every key after the bundling fold comes from the accumulator or from
normalizing some processed row. -/
theorem foldl_bundle_keys (rot : Bool) (l : List Row) :
    ∀ acc : List ((ℚ × ℚ) × ℕ),
      ∀ kc ∈ l.foldl (fun a r => bundleAdd a (normalize_dim r.w r.h rot) r.n) acc,
        kc.1 ∈ acc.map Prod.fst ∨ ∃ r ∈ l, kc.1 = normalize_dim r.w r.h rot := by
  induction l with
  | nil => intro acc kc hkc; exact Or.inl (List.mem_map_of_mem _ hkc)
  | cons r rest ih =>
    intro acc kc hkc
    rcases ih (bundleAdd acc (normalize_dim r.w r.h rot) r.n) kc hkc with h | h
    · rcases List.mem_map.mp h with ⟨kc2, hkc2, hfst⟩
      rcases bundleAdd_keys (normalize_dim r.w r.h rot) r.n acc kc2 hkc2 with h2 | h2
      · exact Or.inr ⟨r, List.mem_cons_self _ _, by rw [← hfst, h2]⟩
      · exact Or.inl (by rw [← hfst]; exact h2)
    · rcases h with ⟨r2, hr2, hkey⟩
      exact Or.inr ⟨r2, List.mem_cons_of_mem _ hr2, hkey⟩

/-- Every bundle produced by `demand_bundled` is keyed by the normalized
dimensions of some row. -/
theorem demand_bundled_keys (rows : List Row) (rot : Bool) :
    ∀ t ∈ demand_bundled rows rot, ∃ r ∈ rows, (t.1, t.2.1) = normalize_dim r.w r.h rot := by
  intro t ht
  unfold demand_bundled at ht
  rcases List.mem_map.mp ht with ⟨kc, hkc, rfl⟩
  rcases foldl_bundle_keys rot rows [] kc hkc with h | h
  · exact absurd h (by simp)
  · rcases h with ⟨r, hr, hkey⟩
    exact ⟨r, hr, by rw [← hkey]⟩

/-- Every expanded piece's dimensions are the oriented dimensions of some
bundle. -/
theorem expandGo_mem_dims (rot : Bool) (fixed : ℚ) :
    ∀ (bund : List (ℚ × ℚ × ℕ)) (idx : ℕ), ∀ p ∈ expandGo rot fixed bund idx,
      ∃ t ∈ bund, p.w = (orientFor rot fixed t.1 t.2.1).1
        ∧ p.h = (orientFor rot fixed t.1 t.2.1).2.1 := by
  intro bund
  induction bund with
  | nil => intro idx p hp; simp [expandGo] at hp
  | cons t rest ih =>
    intro idx p hp
    rcases t with ⟨w, h, n⟩
    simp only [expandGo] at hp
    rcases List.mem_append.mp hp with h1 | h1
    · rcases List.mem_map.mp h1 with ⟨j, _, rfl⟩
      exact ⟨(w, h, n), List.mem_cons_self _ _, rfl, rfl⟩
    · rcases ih (idx + n) p h1 with ⟨t2, ht2, hd⟩
      exact ⟨t2, List.mem_cons_of_mem _ ht2, hd⟩

/-- C5 amended: the expansion emits ids `0, 1, 2, ...` (one per demanded
unit, `totalQty rows` of them), and each piece's dimensions are some row's
dimensions, possibly swapped.  Row order is not preserved and rows with equal
(normalized) dimensions are bundled. -/
theorem c5_amended (rows : List Row) (rot : Bool) (fixed : ℚ) :
    (expandedFor rows rot fixed).map HPiece.pid = List.range (totalQty rows)
    ∧ ∀ p ∈ expandedFor rows rot fixed, ∃ r ∈ rows,
        (p.w = r.w ∧ p.h = r.h) ∨ (p.w = r.h ∧ p.h = r.w) := by
  refine ⟨expandedFor_pids rows rot fixed, ?_⟩
  intro p hp
  rcases expandGo_mem_dims rot fixed (demand_bundled rows rot) 0 p hp with ⟨t, ht, hw, hh⟩
  rcases demand_bundled_keys rows rot t ht with ⟨r, hr, hkey⟩
  refine ⟨r, hr, ?_⟩
  rcases normalize_dim_cases r.w r.h rot with hn | hn
  · rw [hn] at hkey
    have ht1 : t.1 = r.w := congrArg Prod.fst hkey
    have ht2 : t.2.1 = r.h := congrArg Prod.snd hkey
    rcases orientFor_dims rot fixed t.1 t.2.1 with ⟨ho1, ho2⟩ | ⟨ho1, ho2⟩
    · exact Or.inl ⟨by rw [hw, ho1, ht1], by rw [hh, ho2, ht2]⟩
    · exact Or.inr ⟨by rw [hw, ho1, ht2], by rw [hh, ho2, ht1]⟩
  · rw [hn] at hkey
    have ht1 : t.1 = r.h := congrArg Prod.fst hkey
    have ht2 : t.2.1 = r.w := congrArg Prod.snd hkey
    rcases orientFor_dims rot fixed t.1 t.2.1 with ⟨ho1, ho2⟩ | ⟨ho1, ho2⟩
    · exact Or.inr ⟨by rw [hw, ho1, ht1], by rw [hh, ho2, ht2]⟩
    · exact Or.inl ⟨by rw [hw, ho1, ht2], by rw [hh, ho2, ht1]⟩

/-- C7 amended: within a rebuilt shelf, consecutive drawn pieces are flush
(gap 0) exactly when their widths agree — the same-width bundle — and are
separated by exactly `kerf + extra` (so at least `kerf` whenever the blade
pressure `extra` is nonnegative) when their widths differ, a cross cut lying
between them. -/
theorem c7_kerf_gap (kerf extra edge_trim : ℚ) (sh : Shelf) :
    List.Chain' (gapRel kerf extra) (rebuildShelfH kerf extra edge_trim sh).1 :=
  rebuildGoH_chain kerf extra edge_trim sh.y sh.h (same_width_pack_order sh.pieces) 0 none

end Budomari
